import Mathlib

/-!
Shallow embedding of the `SearchServer` in-memory document search engine
(src/main.cpp): whitespace tokenization, stop-word filtering, document
ingestion with a word-level inverted index, TF-IDF ranking with exclusion
(minus) terms, and per-document matching.

Modelling conventions:
* C++ `std::string` is `List Char` (`Word`); character validity compares
  code points, matching `c >= '\0' && c < ' '` over the 0..31 control range.
* C++ `double` is modelled exactly: term frequencies (sums of `1/n`) live in
  `ℚ`; relevance values, which involve `log`, live in `ℝ` with `Real.log`.
* `std::map` / `std::set` are association lists.  `documents_` is kept
  sorted by key (std::map iterates in ascending key order, which
  `GetDocumentId` relies on); the inner posting maps are kept sorted the same
  way.  The outer index map is never iterated by the engine, only looked up,
  so it is an insertion-ordered association list.
* `std::map::at` on a missing key throws; the only reachable call sites are
  guarded (a posted document id is always in the store for states built by
  `addDocument`), and the model returns a default / `none` on that
  (unreachable) branch.
-/

set_option maxHeartbeats 1000000

/-- A token / raw text: a C++ `std::string` as a list of characters. -/
abbrev Word := List Char

/-- Loop body of `SplitIntoWords`: accumulate the current word, flush it on
a space, flush the trailing word at the end.  Empty words are never emitted. -/
def splitGo (word : Word) : Word → List Word
  | [] => if word = [] then [] else [word]
  | c :: cs =>
    if c = ' ' then
      if word = [] then splitGo [] cs else word :: splitGo [] cs
    else
      splitGo (word ++ [c]) cs

/-- `SplitIntoWords`: split on spaces, discarding empty tokens. -/
def splitIntoWords (text : Word) : List Word := splitGo [] text

/-- `DocumentStatus` enum. -/
inductive DocumentStatus where
  | ACTUAL
  | IRRELEVANT
  | BANNED
  | REMOVED
deriving DecidableEq, Repr

/-- A result item (`struct Document`): id, relevance, rating. -/
structure Document where
  id : Int
  relevance : ℝ
  rating : Int

/-- Per-document record stored in `documents_` (`struct DocumentData`). -/
structure DocumentData where
  rating : Int
  status : DocumentStatus
deriving DecidableEq, Repr

/-- `MAX_RESULT_DOCUMENT_COUNT = 5`. -/
def MAX_RESULT_DOCUMENT_COUNT : ℕ := 5

/-- `DELTA = 1e-6`, the float-equality tolerance of the result comparator. -/
noncomputable def DELTA : ℝ := 1 / 1000000

/-- `SearchServer::INVALID_DOCUMENT_ID = -1`. -/
def INVALID_DOCUMENT_ID : Int := -1

/-- `IsValidWord`: false iff the string is exactly "-" or contains a
character in the control range (code points 0..31). -/
def isValidWord (word : Word) : Bool :=
  decide (word ≠ ['-']) && word.all (fun c => !decide (c.toNat < 32))

/-- The engine state: stop-word set, inverted index
(`word_to_document_freqs_`), and the document store (`documents_`). -/
structure SearchServer where
  stop_words : List Word
  word_to_document_freqs : List (Word × List (Int × ℚ))
  documents : List (Int × DocumentData)
deriving DecidableEq, Repr

/-- `std::set` insertion: add the element only when absent. -/
def setInsertW (w : Word) (l : List Word) : List Word :=
  if w ∈ l then l else l ++ [w]

/-- Constructor from a space-delimited stop-words string. -/
def mkSearchServer (stop_words_text : Word) : SearchServer :=
  ⟨(splitIntoWords stop_words_text).foldl (fun l w => setInsertW w l) [], [], []⟩

/-- `SetStopWords`: merge additional stop words into the set. -/
def setStopWords (s : SearchServer) (text : Word) : SearchServer :=
  { s with stop_words := (splitIntoWords text).foldl (fun l w => setInsertW w l) s.stop_words }

/-- `IsStopWord`. -/
def isStopWord (s : SearchServer) (w : Word) : Bool := decide (w ∈ s.stop_words)

/-- `SplitIntoWordsNoStop`: tokenize and drop stop words. -/
def splitIntoWordsNoStop (s : SearchServer) (text : Word) : List Word :=
  (splitIntoWords text).filter (fun w => !isStopWord s w)

/-- Association-list lookup (`std::map` lookup by key). -/
def alookup {α β : Type} [DecidableEq α] (k : α) : List (α × β) → Option β
  | [] => none
  | (k', v) :: rest => if k' = k then some v else alookup k rest

/-- Key-ordered insertion into an `Int`-keyed association list, not
overwriting an existing key (`std::map::emplace`). -/
def insertSorted {β : Type} (k : Int) (v : β) : List (Int × β) → List (Int × β)
  | [] => [(k, v)]
  | (k', v') :: rest =>
    if k < k' then (k, v) :: (k', v') :: rest
    else if k = k' then (k', v') :: rest
    else (k', v') :: insertSorted k v rest

/-- `m[k] += x` on a key-ordered `Int`-keyed map: bump the existing value,
or insert `x` at the key's sorted position (`operator[]` default-inserts the
additive zero before `+=`). -/
def bumpAdd {β : Type} [Add β] (id : Int) (x : β) : List (Int × β) → List (Int × β)
  | [] => [(id, x)]
  | (k, v) :: rest =>
    if id < k then (id, x) :: (k, v) :: rest
    else if id = k then (k, v + x) :: rest
    else (k, v) :: bumpAdd id x rest

/-- `word_to_document_freqs_[word][document_id] += x`. -/
def bumpFreq (w : Word) (id : Int) (x : ℚ) :
    List (Word × List (Int × ℚ)) → List (Word × List (Int × ℚ))
  | [] => [(w, bumpAdd id x [])]
  | (w', ps) :: rest =>
    if w' = w then (w', bumpAdd id x ps) :: rest else (w', ps) :: bumpFreq w id x rest

/-- `ComputeAverageRating`: integer mean (C++ `/` truncates toward zero),
`0` for an empty list. -/
def computeAverageRating (ratings : List Int) : Int :=
  if ratings = [] then 0
  else Int.tdiv (ratings.foldl (· + ·) 0) ratings.length

/-- `AddDocument`: reject a negative id, a duplicate id, or invalid text;
otherwise record the document and, when some non-stop tokens remain, merge
each token's `1/n` frequency contribution into the inverted index. -/
def addDocument (s : SearchServer) (document_id : Int) (document : Word)
    (status : DocumentStatus) (ratings : List Int) : SearchServer × Bool :=
  if document_id < 0 ∨ (alookup document_id s.documents).isSome ∨ isValidWord document = false then
    (s, false)
  else
    let words := splitIntoWordsNoStop s document
    let docs' := insertSorted document_id ⟨computeAverageRating ratings, status⟩ s.documents
    if words = [] then
      ({ s with documents := docs' }, true)
    else
      let inv_word_count : ℚ := 1 / (words.length : ℚ)
      ({ s with
         word_to_document_freqs :=
           words.foldl (fun idx w => bumpFreq w document_id inv_word_count idx)
             s.word_to_document_freqs,
         documents := docs' }, true)

/-- `GetDocumentCount`. -/
def getDocumentCount (s : SearchServer) : Int := s.documents.length

/-- Loop of `GetDocumentId`: walk the store counting positions. -/
def getDocIdLoop : List (Int × DocumentData) → ℕ → Int
  | [], _ => INVALID_DOCUMENT_ID
  | (id, _) :: _, 0 => id
  | _ :: rest, n + 1 => getDocIdLoop rest n

/-- `GetDocumentId`: the id at the given zero-based position of the store's
iteration order, `-1` when out of range. -/
def getDocumentId (s : SearchServer) (index : Int) : Int :=
  if index < 0 ∨ (s.documents.length : Int) ≤ index then INVALID_DOCUMENT_ID
  else getDocIdLoop s.documents index.toNat

/-- `struct QueryWord`. -/
structure QueryWord where
  data : Word
  is_minus : Bool
  is_stop : Bool
deriving DecidableEq, Repr

/-- `ParseQueryWord`: reject an invalid token or a token starting with two
exclusion markers; otherwise strip a single leading marker.  A lone "-" is
already rejected by `isValidWord`, so the stripped remainder is nonempty. -/
def parseQueryWord (s : SearchServer) (text : Word) : Option QueryWord :=
  if isValidWord text = false then none
  else
    match text with
    | '-' :: '-' :: _ => none
    | '-' :: rest => some ⟨rest, true, isStopWord s rest⟩
    | _ => some ⟨text, false, isStopWord s text⟩

/-- `struct Query`: required ("plus") and excluded ("minus") term sets.
`std::set` semantics are modelled by duplicate-free insertion. -/
structure Query where
  plus_words : List Word
  minus_words : List Word
deriving DecidableEq, Repr

/-- Loop of `ParseQuery` over the query tokens. -/
def parseQueryLoop (s : SearchServer) : List Word → Query → Option Query
  | [], acc => some acc
  | w :: ws, acc =>
    match parseQueryWord s w with
    | none => none
    | some qw =>
      if qw.is_stop then parseQueryLoop s ws acc
      else if qw.is_minus then
        parseQueryLoop s ws { acc with minus_words := setInsertW qw.data acc.minus_words }
      else
        parseQueryLoop s ws { acc with plus_words := setInsertW qw.data acc.plus_words }

/-- `ParseQuery`. -/
def parseQuery (s : SearchServer) (text : Word) : Option Query :=
  parseQueryLoop s (splitIntoWords text) ⟨[], []⟩

/-- `ComputeWordInverseDocumentFreq`:
`log(GetDocumentCount() * 1.0 / word_to_document_freqs_.at(word).size())`.
Call sites guard presence of the word, so the `.at` is modelled by a
default-empty lookup. -/
noncomputable def computeWordInverseDocumentFreq (s : SearchServer) (w : Word) : ℝ :=
  Real.log ((getDocumentCount s : ℝ) /
    (((alookup w s.word_to_document_freqs).getD []).length : ℝ))

/-- `std::map::erase` by key. -/
def eraseKey {β : Type} (id : Int) : List (Int × β) → List (Int × β)
  | [] => []
  | (k, v) :: rest => if k = id then eraseKey id rest else (k, v) :: eraseKey id rest

/-- Plus-word pass of `FindAllDocuments`: for each posting of an indexed
required term, when the predicate accepts the document, accumulate
`term_frequency * inverse_document_freq` into its relevance.  A posted id
absent from the store would make the C++ `.at` throw; the model skips it. -/
noncomputable def accumulatePlusWord (s : SearchServer)
    (pred : Int → DocumentStatus → Int → Bool)
    (rel : List (Int × ℝ)) (w : Word) : List (Int × ℝ) :=
  match alookup w s.word_to_document_freqs with
  | none => rel
  | some ps =>
    let idf := computeWordInverseDocumentFreq s w
    ps.foldl (fun r p =>
      match alookup p.1 s.documents with
      | some dd => if pred p.1 dd.status dd.rating then bumpAdd p.1 ((p.2 : ℝ) * idf) r else r
      | none => r) rel

/-- `FindAllDocuments`: accumulate plus-word relevance, then erase every
document posting under a minus word, then materialize result items. -/
noncomputable def findAllDocuments (s : SearchServer) (q : Query)
    (pred : Int → DocumentStatus → Int → Bool) : List Document :=
  let rel0 := q.plus_words.foldl (accumulatePlusWord s pred) []
  let rel1 := q.minus_words.foldl (fun r w =>
    match alookup w s.word_to_document_freqs with
    | none => r
    | some ps => ps.foldl (fun r' p => eraseKey p.1 r') r) rel0
  rel1.map (fun p =>
    ⟨p.1, p.2, ((alookup p.1 s.documents).getD ⟨0, DocumentStatus.ACTUAL⟩).rating⟩)

/-- The `FindTopDocuments` sort comparator: relevances closer than `DELTA`
are tied and compared by rating, otherwise by relevance, both descending. -/
noncomputable def docBefore (a b : Document) : Prop :=
  if |a.relevance - b.relevance| < DELTA then a.rating > b.rating
  else a.relevance > b.relevance

open Classical in
/-- Ordered insertion for the result sort: place `x` before the first
element that does not strictly precede it under the comparator. -/
noncomputable def orderedInsertDoc (x : Document) : List Document → List Document
  | [] => [x]
  | y :: ys => if docBefore y x then y :: orderedInsertDoc x ys else x :: y :: ys

/-- The result sort (`std::sort` with the `docBefore` comparator; the order
among fully tied items is unspecified by the source, the model fixes
insertion sort). -/
noncomputable def sortDocuments : List Document → List Document
  | [] => []
  | x :: xs => orderedInsertDoc x (sortDocuments xs)

/-- `FindTopDocuments` (predicate overload): `none` on an invalid query,
otherwise the sorted result list truncated to `MAX_RESULT_DOCUMENT_COUNT`. -/
noncomputable def findTopDocuments (s : SearchServer) (raw_query : Word)
    (pred : Int → DocumentStatus → Int → Bool) : Option (List Document) :=
  match parseQuery s raw_query with
  | none => none
  | some q =>
    if isValidWord raw_query = false then none
    else some ((sortDocuments (findAllDocuments s q pred)).take MAX_RESULT_DOCUMENT_COUNT)

/-- `FindTopDocuments` (status overload). -/
noncomputable def findTopDocumentsByStatus (s : SearchServer) (raw_query : Word)
    (status : DocumentStatus) : Option (List Document) :=
  findTopDocuments s raw_query (fun _ doc_status _ => decide (doc_status = status))

/-- `FindTopDocuments` (no-argument overload, `ACTUAL` filter). -/
noncomputable def findTopDocumentsDefault (s : SearchServer) (raw_query : Word) :
    Option (List Document) :=
  findTopDocumentsByStatus s raw_query DocumentStatus.ACTUAL

/-- `MatchDocument`: the required terms posting for the document, cleared
when any excluded term posts for it, together with the stored status.  The
C++ `.at` on a missing store id throws; the model returns `none` there. -/
def matchDocument (s : SearchServer) (raw_query : Word) (document_id : Int) :
    Option (List Word × DocumentStatus) :=
  match parseQuery s raw_query with
  | none => none
  | some q =>
    if isValidWord raw_query = false then none
    else
      let matched := q.plus_words.filter (fun w =>
        match alookup w s.word_to_document_freqs with
        | none => false
        | some ps => (alookup document_id ps).isSome)
      let hasMinus := q.minus_words.any (fun w =>
        match alookup w s.word_to_document_freqs with
        | none => false
        | some ps => (alookup document_id ps).isSome)
      match alookup document_id s.documents with
      | some dd => some (if hasMinus then [] else matched, dd.status)
      | none => none

/-- One recorded `AddDocument` call. -/
structure AddOp where
  id : Int
  text : Word
  status : DocumentStatus
  ratings : List Int

/-- Run a sequence of `AddDocument` calls, discarding the success flags. -/
def runAdds : SearchServer → List AddOp → SearchServer
  | s, [] => s
  | s, op :: ops => runAdds (addDocument s op.id op.text op.status op.ratings).1 ops

/-- Sum of the values recorded under one key of an association list. -/
def sumFor (l : List (Int × ℚ)) (id : Int) : ℚ :=
  ((l.filter (fun p => p.1 = id)).map (fun p => p.2)).sum

/-- Sum of all term frequencies recorded in the index for one document. -/
def docFreqSum (idx : List (Word × List (Int × ℚ))) (id : Int) : ℚ :=
  (idx.map (fun pr => sumFor pr.2 id)).sum

/-- The index holds at least one posting for the document. -/
def hasPosting (idx : List (Word × List (Int × ℚ))) (id : Int) : Prop :=
  ∃ pr ∈ idx, ∃ p ∈ pr.2, p.1 = id

instance (idx : List (Word × List (Int × ℚ))) (id : Int) : Decidable (hasPosting idx id) := by
  unfold hasPosting
  infer_instance

/-- The claim C2 ordering: descending relevance, with relevances closer
than `DELTA` tied and ordered by descending rating. -/
noncomputable def resultOrdered (a b : Document) : Prop :=
  if |a.relevance - b.relevance| < DELTA then b.rating ≤ a.rating
  else b.relevance < a.relevance

/-- Shape of a `findTopDocuments` result: at most five items, consecutively
ordered by `resultOrdered`. -/
noncomputable def sortedTruncated : Option (List Document) → Prop
  | none => True
  | some l => l.length ≤ MAX_RESULT_DOCUMENT_COUNT ∧ List.Chain' resultOrdered l

/-- Index consistency: every posted document id is in the store, and its
recorded term frequencies sum to exactly 1. -/
def indexConsistent (s : SearchServer) : Prop :=
  ∀ j, hasPosting s.word_to_document_freqs j →
    (alookup j s.documents).isSome = true ∧ docFreqSum s.word_to_document_freqs j = 1

/-- The all-accepting document predicate. -/
def predTrue : Int → DocumentStatus → Int → Bool := fun _ _ _ => true

/-- A concrete state with one document (id 0, rating 3) containing the two
terms "a" and "b", each with frequency 1/2. -/
def serverAB : SearchServer :=
  ⟨[], [(['a'], [(0, 1/2)]), (['b'], [(0, 1/2)])], [(0, ⟨3, DocumentStatus.ACTUAL⟩)]⟩

/-- A concrete state with one document (id 0, rating 7) containing the
single term "t" with frequency 1. -/
def serverT : SearchServer :=
  ⟨[], [(['t'], [(0, 1)])], [(0, ⟨7, DocumentStatus.ACTUAL⟩)]⟩

/-- A concrete state with six documents, ids 0..5, rating equal to the id,
all containing the single term "t" with frequency 1. -/
def serverSix : SearchServer :=
  ⟨[], [(['t'], [(0, 1), (1, 1), (2, 1), (3, 1), (4, 1), (5, 1)])],
   [(0, ⟨0, DocumentStatus.ACTUAL⟩), (1, ⟨1, DocumentStatus.ACTUAL⟩),
    (2, ⟨2, DocumentStatus.ACTUAL⟩), (3, ⟨3, DocumentStatus.ACTUAL⟩),
    (4, ⟨4, DocumentStatus.ACTUAL⟩), (5, ⟨5, DocumentStatus.ACTUAL⟩)]⟩

/-! ### Association-list lemmas -/

theorem alookup_nil {α β : Type} [DecidableEq α] (k : α) :
    alookup k ([] : List (α × β)) = none := rfl

theorem alookup_cons {α β : Type} [DecidableEq α] (k k' : α) (v : β) (l : List (α × β)) :
    alookup k ((k', v) :: l) = if k' = k then some v else alookup k l := rfl

theorem alookup_eq_none_iff {α β : Type} [DecidableEq α] {k : α} {l : List (α × β)} :
    alookup k l = none ↔ ∀ p ∈ l, p.1 ≠ k := by
  induction l with
  | nil => simp [alookup_nil]
  | cons hd tl ih =>
    obtain ⟨k', v⟩ := hd
    rw [alookup_cons]
    by_cases h : k' = k
    · subst h
      simp
    · simp [h, ih]

theorem alookup_isSome_iff {α β : Type} [DecidableEq α] {k : α} {l : List (α × β)} :
    (alookup k l).isSome = true ↔ ∃ p ∈ l, p.1 = k := by
  induction l with
  | nil => simp [alookup_nil]
  | cons hd tl ih =>
    obtain ⟨k', v⟩ := hd
    rw [alookup_cons]
    by_cases h : k' = k
    · subst h
      simp
    · simp [h, ih]

theorem mem_of_alookup_eq_some {α β : Type} [DecidableEq α] {k : α} {v : β}
    {l : List (α × β)} (h : alookup k l = some v) : (k, v) ∈ l := by
  induction l with
  | nil => simp [alookup_nil] at h
  | cons hd tl ih =>
    obtain ⟨k', v'⟩ := hd
    rw [alookup_cons] at h
    by_cases hk : k' = k
    · subst hk
      rw [if_pos rfl] at h
      simp at h
      simp [h]
    · rw [if_neg hk] at h
      exact List.mem_cons_of_mem _ (ih h)

theorem bumpAdd_nil {β : Type} [Add β] (id : Int) (x : β) :
    bumpAdd id x [] = [(id, x)] := rfl

theorem bumpAdd_cons {β : Type} [Add β] (id k : Int) (x v : β) (l : List (Int × β)) :
    bumpAdd id x ((k, v) :: l) =
      if id < k then (id, x) :: (k, v) :: l
      else if id = k then (k, v + x) :: l
      else (k, v) :: bumpAdd id x l := rfl

theorem alookup_bumpAdd_ne {β : Type} [Add β] {j id : Int} (x : β)
    {l : List (Int × β)} (h : j ≠ id) : alookup j (bumpAdd id x l) = alookup j l := by
  induction l with
  | nil => rw [bumpAdd_nil, alookup_cons, if_neg (Ne.symm h), alookup_nil]
  | cons hd tl ih =>
    obtain ⟨k, v⟩ := hd
    rw [bumpAdd_cons]
    rcases lt_trichotomy id k with hlt | heq | hgt
    · rw [if_pos hlt, alookup_cons, if_neg (Ne.symm h), alookup_cons]
    · subst heq
      rw [if_neg (lt_irrefl id), if_pos rfl, alookup_cons, alookup_cons,
        if_neg (Ne.symm h), if_neg (Ne.symm h)]
    · rw [if_neg (not_lt.mpr hgt.le), if_neg (Ne.symm (ne_of_lt hgt)),
        alookup_cons, alookup_cons, ih]

theorem alookup_bumpAdd_self_isSome {β : Type} [Add β] {id : Int} (x : β)
    (l : List (Int × β)) : (alookup id (bumpAdd id x l)).isSome = true := by
  induction l with
  | nil => rw [bumpAdd_nil, alookup_cons, if_pos rfl]; rfl
  | cons hd tl ih =>
    obtain ⟨k, v⟩ := hd
    rw [bumpAdd_cons]
    rcases lt_trichotomy id k with hlt | heq | hgt
    · rw [if_pos hlt, alookup_cons, if_pos rfl]; rfl
    · subst heq
      rw [if_neg (lt_irrefl id), if_pos rfl, alookup_cons, if_pos rfl]; rfl
    · rw [if_neg (not_lt.mpr hgt.le), if_neg (Ne.symm (ne_of_lt hgt)),
        alookup_cons, if_neg (ne_of_lt hgt)]
      exact ih

theorem mem_bumpAdd {β : Type} [Add β] {p : Int × β} {id : Int} {x : β}
    {l : List (Int × β)} (h : p ∈ bumpAdd id x l) : p.1 = id ∨ p ∈ l := by
  induction l with
  | nil =>
    rw [bumpAdd_nil] at h
    simp at h
    simp [h]
  | cons hd tl ih =>
    obtain ⟨k, v⟩ := hd
    rw [bumpAdd_cons] at h
    rcases lt_trichotomy id k with hlt | heq | hgt
    · rw [if_pos hlt] at h
      rcases List.mem_cons.mp h with h | h
      · simp [h]
      · exact Or.inr h
    · subst heq
      rw [if_neg (lt_irrefl id), if_pos rfl] at h
      rcases List.mem_cons.mp h with h | h
      · exact Or.inl (by simp [h])
      · exact Or.inr (List.mem_cons_of_mem _ h)
    · rw [if_neg (not_lt.mpr hgt.le), if_neg (Ne.symm (ne_of_lt hgt))] at h
      rcases List.mem_cons.mp h with h | h
      · exact Or.inr (by simp [h])
      · rcases ih h with h' | h'
        · exact Or.inl h'
        · exact Or.inr (List.mem_cons_of_mem _ h')

theorem sumFor_nil (id : Int) : sumFor [] id = 0 := rfl

theorem sumFor_cons (k id : Int) (v : ℚ) (l : List (Int × ℚ)) :
    sumFor ((k, v) :: l) id = if k = id then v + sumFor l id else sumFor l id := by
  by_cases h : k = id <;> simp [sumFor, List.filter_cons, h]

theorem sumFor_bumpAdd_self {id : Int} (x : ℚ) (l : List (Int × ℚ)) :
    sumFor (bumpAdd id x l) id = sumFor l id + x := by
  induction l with
  | nil =>
    rw [bumpAdd_nil, sumFor_cons, if_pos rfl]
    ring
  | cons hd tl ih =>
    obtain ⟨k, v⟩ := hd
    rw [bumpAdd_cons]
    rcases lt_trichotomy id k with hlt | heq | hgt
    · rw [if_pos hlt, sumFor_cons, if_pos rfl]
      ring
    · subst heq
      rw [if_neg (lt_irrefl id), if_pos rfl, sumFor_cons, if_pos rfl, sumFor_cons, if_pos rfl]
      ring
    · rw [if_neg (not_lt.mpr hgt.le), if_neg (Ne.symm (ne_of_lt hgt)),
        sumFor_cons, sumFor_cons, ih]
      by_cases h : k = id
      · rw [if_pos h, if_pos h]
        ring
      · rw [if_neg h, if_neg h]

theorem sumFor_bumpAdd_ne {j id : Int} (x : ℚ) (l : List (Int × ℚ)) (h : j ≠ id) :
    sumFor (bumpAdd id x l) j = sumFor l j := by
  induction l with
  | nil => rw [bumpAdd_nil, sumFor_cons, if_neg (Ne.symm h), sumFor_nil]
  | cons hd tl ih =>
    obtain ⟨k, v⟩ := hd
    rw [bumpAdd_cons]
    rcases lt_trichotomy id k with hlt | heq | hgt
    · rw [if_pos hlt, sumFor_cons, if_neg (Ne.symm h)]
    · subst heq
      rw [if_neg (lt_irrefl id), if_pos rfl, sumFor_cons, if_neg (Ne.symm h),
        sumFor_cons, if_neg (Ne.symm h)]
    · rw [if_neg (not_lt.mpr hgt.le), if_neg (Ne.symm (ne_of_lt hgt)),
        sumFor_cons, sumFor_cons, ih]

theorem sumFor_eq_zero_of_not_mem {j : Int} {l : List (Int × ℚ)}
    (h : ∀ p ∈ l, p.1 ≠ j) : sumFor l j = 0 := by
  induction l with
  | nil => rfl
  | cons hd tl ih =>
    obtain ⟨k, v⟩ := hd
    rw [sumFor_cons, if_neg (h (k, v) (List.mem_cons_self _ _))]
    exact ih (fun p hp => h p (List.mem_cons_of_mem _ hp))

theorem eraseKey_nil {β : Type} (id : Int) : eraseKey id ([] : List (Int × β)) = [] := rfl

theorem eraseKey_cons {β : Type} (id k : Int) (v : β) (l : List (Int × β)) :
    eraseKey id ((k, v) :: l) =
      if k = id then eraseKey id l else (k, v) :: eraseKey id l := rfl

theorem alookup_eraseKey_self {β : Type} {id : Int} {l : List (Int × β)} :
    alookup id (eraseKey id l) = none := by
  induction l with
  | nil => rfl
  | cons hd tl ih =>
    obtain ⟨k, v⟩ := hd
    rw [eraseKey_cons]
    by_cases h : k = id
    · rw [if_pos h]
      exact ih
    · rw [if_neg h, alookup_cons, if_neg h]
      exact ih

theorem alookup_eraseKey_ne {β : Type} {j id : Int} {l : List (Int × β)} (h : j ≠ id) :
    alookup j (eraseKey id l) = alookup j l := by
  induction l with
  | nil => rfl
  | cons hd tl ih =>
    obtain ⟨k, v⟩ := hd
    rw [eraseKey_cons]
    by_cases hk : k = id
    · subst hk
      rw [if_pos rfl, alookup_cons, if_neg (Ne.symm h)]
      exact ih
    · rw [if_neg hk, alookup_cons, alookup_cons, ih]

theorem alookup_eraseKey_none {β : Type} {j id : Int} {l : List (Int × β)}
    (h : alookup j l = none) : alookup j (eraseKey id l) = none := by
  by_cases hj : j = id
  · subst hj
    exact alookup_eraseKey_self
  · rw [alookup_eraseKey_ne hj]
    exact h

theorem insertSorted_nil {β : Type} (k : Int) (v : β) :
    insertSorted k v ([] : List (Int × β)) = [(k, v)] := rfl

theorem insertSorted_cons {β : Type} (k k' : Int) (v v' : β) (l : List (Int × β)) :
    insertSorted k v ((k', v') :: l) =
      if k < k' then (k, v) :: (k', v') :: l
      else if k = k' then (k', v') :: l
      else (k', v') :: insertSorted k v l := rfl

theorem mem_insertSorted {β : Type} {p : Int × β} {k : Int} {v : β}
    {l : List (Int × β)} (h : p ∈ insertSorted k v l) : p = (k, v) ∨ p ∈ l := by
  induction l with
  | nil =>
    rw [insertSorted_nil] at h
    simp at h
    simp [h]
  | cons hd tl ih =>
    obtain ⟨k', v'⟩ := hd
    rw [insertSorted_cons] at h
    rcases lt_trichotomy k k' with hlt | heq | hgt
    · rw [if_pos hlt] at h
      rcases List.mem_cons.mp h with h | h
      · exact Or.inl h
      · exact Or.inr h
    · subst heq
      rw [if_neg (lt_irrefl k), if_pos rfl] at h
      exact Or.inr h
    · rw [if_neg (not_lt.mpr hgt.le), if_neg (Ne.symm (ne_of_lt hgt))] at h
      rcases List.mem_cons.mp h with h | h
      · exact Or.inr (by simp [h])
      · rcases ih h with h' | h'
        · exact Or.inl h'
        · exact Or.inr (List.mem_cons_of_mem _ h')

theorem alookup_insertSorted_self_isSome {β : Type} {k : Int} (v : β)
    (l : List (Int × β)) : (alookup k (insertSorted k v l)).isSome = true := by
  induction l with
  | nil => rw [insertSorted_nil, alookup_cons, if_pos rfl]; rfl
  | cons hd tl ih =>
    obtain ⟨k', v'⟩ := hd
    rw [insertSorted_cons]
    rcases lt_trichotomy k k' with hlt | heq | hgt
    · rw [if_pos hlt, alookup_cons, if_pos rfl]; rfl
    · subst heq
      rw [if_neg (lt_irrefl k), if_pos rfl, alookup_cons, if_pos rfl]; rfl
    · rw [if_neg (not_lt.mpr hgt.le), if_neg (Ne.symm (ne_of_lt hgt)),
        alookup_cons, if_neg (ne_of_lt hgt)]
      exact ih

theorem alookup_insertSorted_ne {β : Type} {j k : Int} (v : β)
    (l : List (Int × β)) (h : j ≠ k) :
    alookup j (insertSorted k v l) = alookup j l := by
  induction l with
  | nil => rw [insertSorted_nil, alookup_cons, if_neg (Ne.symm h), alookup_nil]
  | cons hd tl ih =>
    obtain ⟨k', v'⟩ := hd
    rw [insertSorted_cons]
    rcases lt_trichotomy k k' with hlt | heq | hgt
    · rw [if_pos hlt, alookup_cons, if_neg (Ne.symm h), alookup_cons]
    · subst heq
      rw [if_neg (lt_irrefl k), if_pos rfl]
    · rw [if_neg (not_lt.mpr hgt.le), if_neg (Ne.symm (ne_of_lt hgt)),
        alookup_cons, alookup_cons, ih]

theorem pairwise_insertSorted {β : Type} {k : Int} {v : β} {l : List (Int × β)}
    (h : List.Pairwise (fun a b => a.1 < b.1) l) :
    List.Pairwise (fun a b => a.1 < b.1) (insertSorted k v l) := by
  induction l with
  | nil => simp [insertSorted_nil]
  | cons hd tl ih =>
    obtain ⟨k', v'⟩ := hd
    rw [List.pairwise_cons] at h
    obtain ⟨hhd, htl⟩ := h
    rw [insertSorted_cons]
    rcases lt_trichotomy k k' with hlt | heq | hgt
    · rw [if_pos hlt]
      refine List.Pairwise.cons ?_ (List.Pairwise.cons hhd htl)
      intro p hp
      rcases List.mem_cons.mp hp with hp | hp
      · simp [hp, hlt]
      · exact lt_trans hlt (hhd p hp)
    · subst heq
      rw [if_neg (lt_irrefl k), if_pos rfl]
      exact List.Pairwise.cons hhd htl
    · rw [if_neg (not_lt.mpr hgt.le), if_neg (Ne.symm (ne_of_lt hgt))]
      refine List.Pairwise.cons ?_ (ih htl)
      intro p hp
      rcases mem_insertSorted hp with hp' | hp'
      · simp [hp', hgt]
      · exact hhd p hp'

/-! ### Inverted-index lemmas -/

theorem bumpFreq_nil (w : Word) (id : Int) (x : ℚ) :
    bumpFreq w id x [] = [(w, bumpAdd id x [])] := rfl

theorem bumpFreq_cons (w w' : Word) (id : Int) (x : ℚ) (ps : List (Int × ℚ))
    (l : List (Word × List (Int × ℚ))) :
    bumpFreq w id x ((w', ps) :: l) =
      if w' = w then (w', bumpAdd id x ps) :: l else (w', ps) :: bumpFreq w id x l := rfl

theorem docFreqSum_nil (id : Int) : docFreqSum [] id = 0 := rfl

theorem docFreqSum_cons (w : Word) (ps : List (Int × ℚ))
    (idx : List (Word × List (Int × ℚ))) (id : Int) :
    docFreqSum ((w, ps) :: idx) id = sumFor ps id + docFreqSum idx id := by
  simp [docFreqSum]

theorem docFreqSum_bumpFreq_self (w : Word) (id : Int) (x : ℚ)
    (idx : List (Word × List (Int × ℚ))) :
    docFreqSum (bumpFreq w id x idx) id = docFreqSum idx id + x := by
  induction idx with
  | nil =>
    rw [bumpFreq_nil, docFreqSum_cons, bumpAdd_nil, sumFor_cons, if_pos rfl, sumFor_nil,
      docFreqSum_nil]
    ring
  | cons hd tl ih =>
    obtain ⟨w', ps⟩ := hd
    rw [bumpFreq_cons]
    by_cases hw : w' = w
    · rw [if_pos hw, docFreqSum_cons, docFreqSum_cons, sumFor_bumpAdd_self]
      ring
    · rw [if_neg hw, docFreqSum_cons, docFreqSum_cons, ih]
      ring

theorem docFreqSum_bumpFreq_ne (w : Word) {j id : Int} (x : ℚ)
    (idx : List (Word × List (Int × ℚ))) (h : j ≠ id) :
    docFreqSum (bumpFreq w id x idx) j = docFreqSum idx j := by
  induction idx with
  | nil =>
    rw [bumpFreq_nil, docFreqSum_cons, bumpAdd_nil, sumFor_cons, if_neg (Ne.symm h),
      sumFor_nil, docFreqSum_nil]
    ring
  | cons hd tl ih =>
    obtain ⟨w', ps⟩ := hd
    rw [bumpFreq_cons]
    by_cases hw : w' = w
    · rw [if_pos hw, docFreqSum_cons, docFreqSum_cons, sumFor_bumpAdd_ne x ps h]
    · rw [if_neg hw, docFreqSum_cons, docFreqSum_cons, ih]

theorem hasPosting_bumpFreq {idx : List (Word × List (Int × ℚ))} {w : Word}
    {id j : Int} {x : ℚ} (h : hasPosting (bumpFreq w id x idx) j) :
    j = id ∨ hasPosting idx j := by
  induction idx with
  | nil =>
    rw [bumpFreq_nil] at h
    obtain ⟨pr, hpr, p, hp, hpj⟩ := h
    simp at hpr
    subst hpr
    rw [bumpAdd_nil] at hp
    simp at hp
    subst hp
    exact Or.inl hpj.symm
  | cons hd tl ih =>
    obtain ⟨w', ps⟩ := hd
    rw [bumpFreq_cons] at h
    by_cases hw : w' = w
    · rw [if_pos hw] at h
      obtain ⟨pr, hpr, p, hp, hpj⟩ := h
      rcases List.mem_cons.mp hpr with hpr | hpr
      · subst hpr
        rcases mem_bumpAdd hp with h' | h'
        · exact Or.inl (by rw [← hpj, h'])
        · exact Or.inr ⟨(w', ps), List.mem_cons_self _ _, p, h', hpj⟩
      · exact Or.inr ⟨pr, List.mem_cons_of_mem _ hpr, p, hp, hpj⟩
    · rw [if_neg hw] at h
      obtain ⟨pr, hpr, p, hp, hpj⟩ := h
      rcases List.mem_cons.mp hpr with hpr | hpr
      · subst hpr
        exact Or.inr ⟨(w', ps), List.mem_cons_self _ _, p, hp, hpj⟩
      · rcases ih ⟨pr, hpr, p, hp, hpj⟩ with h' | h'
        · exact Or.inl h'
        · obtain ⟨pr', hpr', p', hp', hpj'⟩ := h'
          exact Or.inr ⟨pr', List.mem_cons_of_mem _ hpr', p', hp', hpj'⟩

theorem docFreqSum_eq_zero_of_not_hasPosting {idx : List (Word × List (Int × ℚ))}
    {j : Int} (h : ¬ hasPosting idx j) : docFreqSum idx j = 0 := by
  induction idx with
  | nil => rfl
  | cons hd tl ih =>
    obtain ⟨w, ps⟩ := hd
    rw [docFreqSum_cons]
    have h1 : sumFor ps j = 0 := by
      refine sumFor_eq_zero_of_not_mem ?_
      intro p hp hpj
      exact h ⟨(w, ps), List.mem_cons_self _ _, p, hp, hpj⟩
    have h2 : ¬ hasPosting tl j := by
      intro hh
      obtain ⟨pr, hpr, p, hp, hpj⟩ := hh
      exact h ⟨pr, List.mem_cons_of_mem _ hpr, p, hp, hpj⟩
    rw [h1, ih h2]
    ring

theorem docFreqSum_foldl_bumpFreq_self (ws : List Word) (id : Int) (x : ℚ)
    (idx : List (Word × List (Int × ℚ))) :
    docFreqSum (ws.foldl (fun i w => bumpFreq w id x i) idx) id
      = docFreqSum idx id + (ws.length : ℚ) * x := by
  induction ws generalizing idx with
  | nil => simp
  | cons w ws ih =>
    rw [List.foldl_cons, ih, docFreqSum_bumpFreq_self, List.length_cons]
    push_cast
    ring

theorem docFreqSum_foldl_bumpFreq_ne (ws : List Word) {j id : Int} (x : ℚ)
    (idx : List (Word × List (Int × ℚ))) (h : j ≠ id) :
    docFreqSum (ws.foldl (fun i w => bumpFreq w id x i) idx) j = docFreqSum idx j := by
  induction ws generalizing idx with
  | nil => rfl
  | cons w ws ih =>
    rw [List.foldl_cons, ih, docFreqSum_bumpFreq_ne w x idx h]

theorem hasPosting_foldl_bumpFreq {ws : List Word} {id j : Int} {x : ℚ}
    {idx : List (Word × List (Int × ℚ))}
    (h : hasPosting (ws.foldl (fun i w => bumpFreq w id x i) idx) j) :
    j = id ∨ hasPosting idx j := by
  induction ws generalizing idx with
  | nil => exact Or.inr h
  | cons w ws ih =>
    rw [List.foldl_cons] at h
    rcases ih h with h' | h'
    · exact Or.inl h'
    · exact hasPosting_bumpFreq h'

/-! ### `addDocument` case equations -/

theorem addDocument_rejected {s : SearchServer} {id : Int} {text : Word}
    {st : DocumentStatus} {rs : List Int}
    (h : id < 0 ∨ (alookup id s.documents).isSome = true ∨ isValidWord text = false) :
    addDocument s id text st rs = (s, false) := by
  rw [addDocument, if_pos h]

theorem addDocument_success_empty {s : SearchServer} {id : Int} {text : Word}
    {st : DocumentStatus} {rs : List Int}
    (h : ¬(id < 0 ∨ (alookup id s.documents).isSome = true ∨ isValidWord text = false))
    (hw : splitIntoWordsNoStop s text = []) :
    addDocument s id text st rs =
      ({ s with documents :=
          insertSorted id ⟨computeAverageRating rs, st⟩ s.documents }, true) := by
  rw [addDocument, if_neg h]
  simp [hw]

theorem addDocument_success_nonempty {s : SearchServer} {id : Int} {text : Word}
    {st : DocumentStatus} {rs : List Int}
    (h : ¬(id < 0 ∨ (alookup id s.documents).isSome = true ∨ isValidWord text = false))
    (hw : splitIntoWordsNoStop s text ≠ []) :
    addDocument s id text st rs =
      ({ s with
         word_to_document_freqs :=
           (splitIntoWordsNoStop s text).foldl
             (fun idx w => bumpFreq w id (1 / ((splitIntoWordsNoStop s text).length : ℚ)) idx)
             s.word_to_document_freqs,
         documents := insertSorted id ⟨computeAverageRating rs, st⟩ s.documents }, true) := by
  rw [addDocument, if_neg h]
  simp [hw]

/-! ### Index consistency under ingestion -/

theorem indexConsistent_addDocument {s : SearchServer} (h : indexConsistent s)
    (id : Int) (text : Word) (st : DocumentStatus) (rs : List Int) :
    indexConsistent (addDocument s id text st rs).1 := by
  by_cases hrej : id < 0 ∨ (alookup id s.documents).isSome = true ∨ isValidWord text = false
  · rw [addDocument_rejected hrej]
    exact h
  · have hid : alookup id s.documents = none := by
      have hB : ¬ (alookup id s.documents).isSome = true := fun hb => hrej (Or.inr (Or.inl hb))
      cases halo : alookup id s.documents with
      | none => rfl
      | some v => exact absurd (by rw [halo]; rfl) hB
    by_cases hw : splitIntoWordsNoStop s text = []
    · rw [addDocument_success_empty hrej hw]
      intro j hj
      have hjold := h j hj
      refine ⟨?_, hjold.2⟩
      by_cases hje : j = id
      · subst hje
        exact alookup_insertSorted_self_isSome _ _
      · rw [alookup_insertSorted_ne _ _ hje]
        exact hjold.1
    · rw [addDocument_success_nonempty hrej hw]
      intro j hj
      rcases hasPosting_foldl_bumpFreq hj with hje | hold
      · subst hje
        refine ⟨alookup_insertSorted_self_isSome _ _, ?_⟩
        have hnot : ¬ hasPosting s.word_to_document_freqs j := by
          intro hh
          have hsome := (h j hh).1
          rw [hid] at hsome
          exact absurd hsome (by simp)
        have hsum := docFreqSum_foldl_bumpFreq_self (splitIntoWordsNoStop s text) j
          (1 / ((splitIntoWordsNoStop s text).length : ℚ)) s.word_to_document_freqs
        rw [docFreqSum_eq_zero_of_not_hasPosting hnot] at hsum
        have hn : ((splitIntoWordsNoStop s text).length : ℚ) ≠ 0 :=
          Nat.cast_ne_zero.mpr (by simpa [List.length_eq_zero] using hw)
        rw [hsum]
        field_simp
      · have hje : j ≠ id := by
          intro hh
          subst hh
          have hsome := (h j hold).1
          rw [hid] at hsome
          exact absurd hsome (by simp)
        refine ⟨?_, ?_⟩
        · rw [alookup_insertSorted_ne _ _ hje]
          exact (h j hold).1
        · rw [docFreqSum_foldl_bumpFreq_ne _ _ _ hje]
          exact (h j hold).2

theorem indexConsistent_mkSearchServer (stop : Word) :
    indexConsistent (mkSearchServer stop) := by
  intro j hj
  obtain ⟨pr, hpr, _⟩ := hj
  simp [mkSearchServer] at hpr

theorem indexConsistent_runAdds {s : SearchServer} (h : indexConsistent s)
    (ops : List AddOp) : indexConsistent (runAdds s ops) := by
  induction ops generalizing s with
  | nil => exact h
  | cons op ops ih =>
    exact ih (indexConsistent_addDocument h op.id op.text op.status op.ratings)

/-- C1: for every document ingested by some sequence of `add_document`
calls whose text yields at least one indexed token (equivalently, that has
a posting in the inverted index), the term frequencies recorded for it
across all terms sum to 1.0 within 1e-6. -/
theorem tf_sum_invariant (stop : Word) (ops : List AddOp) (id : Int)
    (h : hasPosting (runAdds (mkSearchServer stop) ops).word_to_document_freqs id) :
    |docFreqSum (runAdds (mkSearchServer stop) ops).word_to_document_freqs id - 1|
      ≤ 1 / 1000000 := by
  have hs := (indexConsistent_runAdds (indexConsistent_mkSearchServer stop) ops id h).2
  rw [hs]
  norm_num

/-- Witness for C1 at a concrete one-document ingestion history. -/
theorem tf_sum_invariant_witness :
    hasPosting (runAdds (mkSearchServer [])
      [⟨0, ['a'], DocumentStatus.ACTUAL, []⟩]).word_to_document_freqs 0 ∧
    |docFreqSum (runAdds (mkSearchServer [])
      [⟨0, ['a'], DocumentStatus.ACTUAL, []⟩]).word_to_document_freqs 0 - 1| ≤ 1 / 1000000 :=
  ⟨by decide, tf_sum_invariant [] [⟨0, ['a'], DocumentStatus.ACTUAL, []⟩] 0 (by decide)⟩

/-! ### Average rating (C8) -/

/-- C8: the stored average rating is the integer mean of the ratings list
truncated toward zero (sign times the natural-number quotient of the
absolute sum by the length), and 0 for an empty list. -/
theorem compute_average_rating_trunc (ratings : List Int) :
    computeAverageRating ratings =
      if ratings = [] then 0
      else Int.sign ratings.sum * ((ratings.sum.natAbs / ratings.length : ℕ) : ℤ) := by
  by_cases h : ratings = []
  · simp [computeAverageRating, h]
  · rw [computeAverageRating, if_neg h, if_neg h]
    have hfold : ratings.foldl (· + ·) 0 = ratings.sum := List.sum_eq_foldl.symm
    rw [hfold]
    generalize ratings.sum = a
    rcases a with m | m
    · cases m with
      | zero => simp [Int.tdiv]
      | succ k =>
        rw [show Int.sign (Int.ofNat (k + 1)) = 1 from rfl, one_mul]
        rfl
    · rw [show Int.sign (Int.negSucc m) = -1 from rfl]
      rw [show Int.tdiv (Int.negSucc m) (ratings.length : Int)
            = -Int.ofNat ((m + 1) / ratings.length) from rfl]
      rw [show (Int.negSucc m).natAbs = m + 1 from rfl]
      simp

/-! ### Rejected ingestion (C6, C4) -/

/-- C6: `add_document` with a negative id, a duplicate id, or text holding a
control character returns failure and leaves the whole state (store, index,
and document count) unchanged. -/
theorem add_document_rejects_invalid (s : SearchServer) (id : Int) (text : Word)
    (st : DocumentStatus) (rs : List Int)
    (h : id < 0 ∨ (alookup id s.documents).isSome = true ∨ ∃ c ∈ text, c.toNat < 32) :
    addDocument s id text st rs = (s, false) ∧
    getDocumentCount (addDocument s id text st rs).1 = getDocumentCount s := by
  have hcond : id < 0 ∨ (alookup id s.documents).isSome = true ∨ isValidWord text = false := by
    rcases h with h | h | h
    · exact Or.inl h
    · exact Or.inr (Or.inl h)
    · refine Or.inr (Or.inr ?_)
      obtain ⟨c, hc, hlt⟩ := h
      simp only [isValidWord, Bool.and_eq_false_iff]
      refine Or.inr ?_
      rw [List.all_eq_false]
      exact ⟨c, hc, by simpa using hlt⟩
  rw [addDocument_rejected hcond]
  exact ⟨rfl, rfl⟩

/-- Witness for C6: a negative id on the empty engine is rejected. -/
theorem add_document_rejects_invalid_witness :
    ((-1 : Int) < 0 ∨ (alookup (-1) (mkSearchServer []).documents).isSome = true ∨
      ∃ c ∈ ([] : Word), c.toNat < 32) ∧
    addDocument (mkSearchServer []) (-1) [] DocumentStatus.ACTUAL [] = (mkSearchServer [], false) :=
  ⟨by decide,
   (add_document_rejects_invalid (mkSearchServer []) (-1) [] DocumentStatus.ACTUAL []
     (by decide)).1⟩

/-- C4 counterexample: the text "a - b" contains a standalone "-" token,
yet `add_document` accepts it and the document count changes from 0 to 1
(`IsValidWord` is applied to the whole text, which only rejects a text that
is exactly "-"). -/
theorem dash_token_counterexample :
    (['-'] ∈ splitIntoWords ['a', ' ', '-', ' ', 'b']) ∧
    (addDocument (mkSearchServer []) 0 ['a', ' ', '-', ' ', 'b']
      DocumentStatus.ACTUAL []).2 = true ∧
    getDocumentCount (addDocument (mkSearchServer []) 0 ['a', ' ', '-', ' ', 'b']
      DocumentStatus.ACTUAL []).1 = 1 ∧
    getDocumentCount (mkSearchServer []) = 0 := by
  decide

/-- C4 amended: `add_document` returns failure and leaves the count
unchanged when the document text as a whole is exactly "-"; an embedded
"-" token among other tokens is accepted (see the counterexample). -/
theorem dash_text_rejected (s : SearchServer) (id : Int) (st : DocumentStatus)
    (rs : List Int) :
    addDocument s id ['-'] st rs = (s, false) ∧
    getDocumentCount (addDocument s id ['-'] st rs).1 = getDocumentCount s := by
  have hcond : id < 0 ∨ (alookup id s.documents).isSome = true ∨ isValidWord ['-'] = false :=
    Or.inr (Or.inr (by decide))
  rw [addDocument_rejected hcond]
  exact ⟨rfl, rfl⟩

/-! ### `getDocumentId` (C9) -/

theorem getDocIdLoop_eq (l : List (Int × DocumentData)) (n : ℕ) :
    getDocIdLoop l n = ((l.map Prod.fst)[n]?).getD INVALID_DOCUMENT_ID := by
  induction l generalizing n with
  | nil => cases n <;> rfl
  | cons hd tl ih =>
    obtain ⟨id, dd⟩ := hd
    cases n with
    | zero => simp [getDocIdLoop]
    | succ n => simpa [getDocIdLoop] using ih n

/-- C9: when the store's keys are strictly ascending (the `std::map`
invariant), `get_document_id` returns the id at the given zero-based
position of the ascending id enumeration for an in-range index and the
sentinel -1 otherwise. -/
theorem get_document_id_spec (s : SearchServer) (i : Int)
    (hsorted : List.Pairwise (fun a b => a.1 < b.1) s.documents) :
    List.Sorted (· < ·) (s.documents.map Prod.fst) ∧
    getDocumentId s i =
      if 0 ≤ i ∧ i < (s.documents.length : Int) then
        ((s.documents.map Prod.fst)[i.toNat]?).getD INVALID_DOCUMENT_ID
      else INVALID_DOCUMENT_ID := by
  constructor
  · exact List.pairwise_map.mpr hsorted
  · rw [getDocumentId]
    by_cases h : i < 0 ∨ (s.documents.length : Int) ≤ i
    · rw [if_pos h, if_neg (by omega)]
    · rw [if_neg h, if_pos (by omega), getDocIdLoop_eq]

/-- Witness for C9 on a six-document store at position 2. -/
theorem get_document_id_spec_witness :
    List.Pairwise (fun a b => a.1 < b.1) serverSix.documents ∧
    (List.Sorted (· < ·) (serverSix.documents.map Prod.fst) ∧
     getDocumentId serverSix 2 =
       if 0 ≤ (2 : Int) ∧ (2 : Int) < (serverSix.documents.length : Int) then
         ((serverSix.documents.map Prod.fst)[(2 : Int).toNat]?).getD INVALID_DOCUMENT_ID
       else INVALID_DOCUMENT_ID) :=
  ⟨by decide, get_document_id_spec serverSix 2 (by decide)⟩

/-! ### Query parsing: set semantics (C7) -/

theorem nodup_setInsertW {w : Word} {l : List Word} (h : l.Nodup) :
    (setInsertW w l).Nodup := by
  rw [setInsertW]
  by_cases hw : w ∈ l
  · rw [if_pos hw]
    exact h
  · rw [if_neg hw]
    simp [List.nodup_append, h, hw]

theorem parseQueryLoop_nodup {s : SearchServer} {ws : List Word} {acc q : Query}
    (hp : acc.plus_words.Nodup) (hm : acc.minus_words.Nodup)
    (h : parseQueryLoop s ws acc = some q) :
    q.plus_words.Nodup ∧ q.minus_words.Nodup := by
  induction ws generalizing acc with
  | nil =>
    simp only [parseQueryLoop, Option.some.injEq] at h
    subst h
    exact ⟨hp, hm⟩
  | cons w ws ih =>
    cases hqw : parseQueryWord s w with
    | none =>
      simp only [parseQueryLoop, hqw] at h
      exact Option.noConfusion h
    | some qw =>
      simp only [parseQueryLoop, hqw] at h
      by_cases hst : qw.is_stop = true
      · rw [if_pos hst] at h
        exact ih hp hm h
      · rw [if_neg hst] at h
        by_cases hmn : qw.is_minus = true
        · rw [if_pos hmn] at h
          refine ih ?_ ?_ h
          · exact hp
          · exact nodup_setInsertW hm
        · rw [if_neg hmn] at h
          refine ih ?_ ?_ h
          · exact nodup_setInsertW hp
          · exact hm

/-- C7 counterexample: parsing the query "a -a" yields the term "a" in both
the required and the excluded set, so the two sets are not disjoint. -/
theorem parse_disjoint_counterexample :
    parseQuery (mkSearchServer []) ['a', ' ', '-', 'a'] = some ⟨[['a']], [['a']]⟩ ∧
    (['a'] : Word) ∈ (Query.mk [['a']] [['a']]).plus_words ∧
    (['a'] : Word) ∈ (Query.mk [['a']] [['a']]).minus_words := by
  decide

/-- C7 amended: every raw query accepted by parse_query yields required and
excluded sets that are each duplicate-free (set semantics), but the two
sets are not necessarily disjoint: a term occurs in both when the query
holds both "x" and "-x". -/
theorem parse_query_sets_nodup (s : SearchServer) (text : Word) (q : Query)
    (h : parseQuery s text = some q) :
    q.plus_words.Nodup ∧ q.minus_words.Nodup := by
  rw [parseQuery] at h
  exact parseQueryLoop_nodup (by simp) (by simp) h

/-- Witness for the amended C7 at the query "a -a b b". -/
theorem parse_query_sets_nodup_witness :
    parseQuery (mkSearchServer []) ['a', ' ', '-', 'a', ' ', 'b', ' ', 'b']
      = some ⟨[['a'], ['b']], [['a']]⟩ ∧
    ([['a'], ['b']] : List Word).Nodup ∧ ([['a']] : List Word).Nodup :=
  ⟨by decide,
   parse_query_sets_nodup (mkSearchServer []) ['a', ' ', '-', 'a', ' ', 'b', ' ', 'b']
     ⟨[['a'], ['b']], [['a']]⟩ (by decide)⟩

/-! ### Query validation (C5) -/

theorem exists_token_of_mem_splitGo {c : Char} (hc : c ≠ ' ') :
    ∀ (cs acc : Word), c ∈ acc ∨ c ∈ cs → ∃ t ∈ splitGo acc cs, c ∈ t := by
  intro cs
  induction cs with
  | nil =>
    intro acc h
    rcases h with h | h
    · have hne : acc ≠ [] := by
        rintro rfl
        simp at h
      refine ⟨acc, ?_, h⟩
      simp [splitGo, hne]
    · simp at h
  | cons c' cs ih =>
    intro acc h
    by_cases hsp : c' = ' '
    · subst hsp
      rcases h with h | h
      · have hne : acc ≠ [] := by
          rintro rfl
          simp at h
        refine ⟨acc, ?_, h⟩
        simp [splitGo, hne]
      · have h' : c ∈ cs := by
          rcases List.mem_cons.mp h with h'' | h''
          · exact absurd h'' hc
          · exact h''
        obtain ⟨t, ht, hct⟩ := ih [] (Or.inr h')
        refine ⟨t, ?_, hct⟩
        by_cases hacc : acc = []
        · subst hacc
          simpa [splitGo] using ht
        · simp [splitGo, hacc]
          right
          exact ht
    · have hstep : splitGo acc (c' :: cs) = splitGo (acc ++ [c']) cs := by
        simp [splitGo, hsp]
      rw [hstep]
      apply ih
      rcases h with h | h
      · exact Or.inl (List.mem_append_left _ h)
      · rcases List.mem_cons.mp h with h'' | h''
        · exact Or.inl (List.mem_append_right _ (by simp [h'']))
        · exact Or.inr h''

theorem exists_token_of_mem {c : Char} {raw : Word} (hc : c ≠ ' ') (h : c ∈ raw) :
    ∃ t ∈ splitIntoWords raw, c ∈ t :=
  exists_token_of_mem_splitGo hc raw [] (Or.inr h)

theorem isValidWord_eq_false_iff {w : Word} :
    isValidWord w = false ↔ w = ['-'] ∨ ∃ c ∈ w, c.toNat < 32 := by
  rw [isValidWord, Bool.and_eq_false_iff]
  constructor
  · intro h
    rcases h with h | h
    · left
      simpa using h
    · right
      rw [List.all_eq_false] at h
      obtain ⟨c, hc, hlt⟩ := h
      exact ⟨c, hc, by simpa using hlt⟩
  · intro h
    rcases h with h | h
    · left
      simp [h]
    · right
      rw [List.all_eq_false]
      obtain ⟨c, hc, hlt⟩ := h
      exact ⟨c, hc, by simpa using hlt⟩

theorem parseQueryWord_none_of_bad {s : SearchServer} {t : Word}
    (h : t = ['-'] ∨ t.take 2 = ['-', '-'] ∨ ∃ c ∈ t, c.toNat < 32) :
    parseQueryWord s t = none := by
  rcases h with h | h | h
  · subst h
    rfl
  · obtain ⟨rest, rfl⟩ : ∃ rest, t = '-' :: '-' :: rest := by
      cases t with
      | nil => simp at h
      | cons a t' =>
        cases t' with
        | nil => simp [List.take] at h
        | cons b t'' =>
          simp [List.take] at h
          exact ⟨t'', by rw [h.1, h.2]⟩
    by_cases hv : isValidWord ('-' :: '-' :: rest) = false
    · unfold parseQueryWord
      rw [if_pos hv]
    · unfold parseQueryWord
      rw [if_neg hv]
      rfl
  · have hv : isValidWord t = false := isValidWord_eq_false_iff.mpr (Or.inr h)
    unfold parseQueryWord
    rw [if_pos hv]

theorem parseQueryLoop_none_of_mem {s : SearchServer} {t : Word}
    (hbad : parseQueryWord s t = none) :
    ∀ (ws : List Word) (acc : Query), t ∈ ws → parseQueryLoop s ws acc = none := by
  intro ws
  induction ws with
  | nil =>
    intro acc ht
    simp at ht
  | cons w ws ih =>
    intro acc ht
    rcases List.mem_cons.mp ht with h | h
    · subst h
      simp only [parseQueryLoop, hbad]
    · cases hqw : parseQueryWord s w with
      | none => simp only [parseQueryLoop, hqw]
      | some qw =>
        simp only [parseQueryLoop, hqw]
        by_cases hst : qw.is_stop = true
        · rw [if_pos hst]
          exact ih _ h
        · rw [if_neg hst]
          by_cases hmn : qw.is_minus = true
          · rw [if_pos hmn]
            exact ih _ h
          · rw [if_neg hmn]
            exact ih _ h

theorem isValidWord_of_parse {s : SearchServer} {raw : Word} {q : Query}
    (h : parseQuery s raw = some q) : isValidWord raw = true := by
  by_contra hv
  have hv' : isValidWord raw = false := by
    cases hb : isValidWord raw
    · rfl
    · exact absurd hb hv
  rcases isValidWord_eq_false_iff.mp hv' with hr | ⟨c, hc, hlt⟩
  · subst hr
    rw [parseQuery] at h
    have hmem : (['-'] : Word) ∈ splitIntoWords ['-'] := by decide
    have hbad1 : parseQueryWord s ['-'] = none := rfl
    rw [parseQueryLoop_none_of_mem hbad1 _ _ hmem] at h
    exact Option.noConfusion h
  · have hcs : c ≠ ' ' := by
      intro hc'
      subst hc'
      exact absurd hlt (by decide)
    obtain ⟨t, ht, hct⟩ := exists_token_of_mem hcs hc
    have hbad : parseQueryWord s t = none :=
      parseQueryWord_none_of_bad (Or.inr (Or.inr ⟨c, hct, hlt⟩))
    rw [parseQuery] at h
    rw [parseQueryLoop_none_of_mem hbad _ _ ht] at h
    exact Option.noConfusion h

/-- C5: a raw query with a token of the form "--x", a lone "-" token, or a
control character makes both `find_top_documents` and `match_document`
return an absent result, for every index state; a query accepted by the
parser always yields a present list, which is the present empty list when
the ranker finds no candidate — distinguishable from the absent case. -/
theorem query_validation (s : SearchServer) (pred : Int → DocumentStatus → Int → Bool)
    (raw : Word) (d : Int) :
    ((∃ t ∈ splitIntoWords raw, t = ['-'] ∨ t.take 2 = ['-', '-'] ∨ ∃ c ∈ t, c.toNat < 32) →
      findTopDocuments s raw pred = none ∧ matchDocument s raw d = none) ∧
    (∀ q, parseQuery s raw = some q →
      (∃ l, findTopDocuments s raw pred = some l) ∧
      (findAllDocuments s q pred = [] → findTopDocuments s raw pred = some [])) := by
  constructor
  · rintro ⟨t, ht, hbad⟩
    have hnone : parseQuery s raw = none := by
      rw [parseQuery]
      exact parseQueryLoop_none_of_mem (parseQueryWord_none_of_bad hbad) _ _ ht
    constructor
    · simp only [findTopDocuments, hnone]
    · simp only [matchDocument, hnone]
  · intro q hq
    have hvalid : isValidWord raw = true := isValidWord_of_parse hq
    have heq : findTopDocuments s raw pred
        = some ((sortDocuments (findAllDocuments s q pred)).take MAX_RESULT_DOCUMENT_COUNT) := by
      simp only [findTopDocuments, hq, hvalid]
      rfl
    refine ⟨⟨_, heq⟩, fun hempty => ?_⟩
    rw [heq, hempty]
    rfl

/-- Witness for C5: the query "--a" is rejected on a concrete one-document
state, while the valid query "c" matching no document yields `some []`. -/
theorem query_validation_witness :
    (∃ t ∈ splitIntoWords ['-', '-', 'a'],
      t = ['-'] ∨ t.take 2 = ['-', '-'] ∨ ∃ c ∈ t, c.toNat < 32) ∧
    (findTopDocuments serverAB ['-', '-', 'a'] predTrue = none ∧
     matchDocument serverAB ['-', '-', 'a'] 0 = none) ∧
    parseQuery serverAB ['c'] = some ⟨[['c']], []⟩ ∧
    findAllDocuments serverAB ⟨[['c']], []⟩ predTrue = [] ∧
    findTopDocuments serverAB ['c'] predTrue = some [] := by
  refine ⟨by decide, ?_, by decide, ?_, ?_⟩
  · exact (query_validation serverAB predTrue ['-', '-', 'a'] 0).1 (by decide)
  · rfl
  · exact ((query_validation serverAB predTrue ['c'] 0).2 ⟨[['c']], []⟩ (by decide)).2 rfl

/-! ### Result ordering (C2) -/

theorem docBefore_asymm {a b : Document} (h : docBefore a b) : ¬ docBefore b a := by
  unfold docBefore at h ⊢
  by_cases hab : |a.relevance - b.relevance| < DELTA
  · rw [if_pos hab] at h
    have hba : |b.relevance - a.relevance| < DELTA := by rwa [abs_sub_comm]
    rw [if_pos hba]
    omega
  · rw [if_neg hab] at h
    have hba : ¬ |b.relevance - a.relevance| < DELTA := by
      rwa [abs_sub_comm]
    rw [if_neg hba]
    exact not_lt.mpr h.le

open Classical in
theorem orderedInsertDoc_nil (x : Document) : orderedInsertDoc x [] = [x] := rfl

open Classical in
theorem orderedInsertDoc_cons (x y : Document) (ys : List Document) :
    orderedInsertDoc x (y :: ys) =
      if docBefore y x then y :: orderedInsertDoc x ys else x :: y :: ys := rfl

theorem orderedInsertDoc_head_cases (x : Document) (l : List Document) :
    orderedInsertDoc x l = x :: l ∨
    ∃ y ys, l = y :: ys ∧ orderedInsertDoc x l = y :: orderedInsertDoc x ys ∧ docBefore y x := by
  cases l with
  | nil => exact Or.inl (orderedInsertDoc_nil x)
  | cons y ys =>
    by_cases h : docBefore y x
    · refine Or.inr ⟨y, ys, rfl, ?_, h⟩
      rw [orderedInsertDoc_cons, if_pos h]
    · refine Or.inl ?_
      rw [orderedInsertDoc_cons, if_neg h]

theorem mem_orderedInsertDoc {z x : Document} {l : List Document} :
    z ∈ orderedInsertDoc x l ↔ z = x ∨ z ∈ l := by
  induction l with
  | nil =>
    rw [orderedInsertDoc_nil]
    simp
  | cons y ys ih =>
    rw [orderedInsertDoc_cons]
    by_cases h : docBefore y x
    · rw [if_pos h]
      simp [ih]
      tauto
    · rw [if_neg h]
      simp

theorem length_orderedInsertDoc (x : Document) (l : List Document) :
    (orderedInsertDoc x l).length = l.length + 1 := by
  induction l with
  | nil => rw [orderedInsertDoc_nil]; rfl
  | cons y ys ih =>
    rw [orderedInsertDoc_cons]
    by_cases h : docBefore y x
    · rw [if_pos h]
      simp [ih]
    · rw [if_neg h]
      simp

theorem chain'_orderedInsertDoc {x : Document} {l : List Document}
    (h : List.Chain' (fun a b => ¬ docBefore b a) l) :
    List.Chain' (fun a b => ¬ docBefore b a) (orderedInsertDoc x l) := by
  induction l with
  | nil =>
    rw [orderedInsertDoc_nil]
    simp
  | cons y ys ih =>
    rw [orderedInsertDoc_cons]
    by_cases hyx : docBefore y x
    · rw [if_pos hyx]
      refine List.chain'_cons'.mpr ⟨?_, ih (List.Chain'.tail h)⟩
      intro z hz
      rcases orderedInsertDoc_head_cases x ys with hcase | ⟨w, ws, hys, heq, hw⟩
      · rw [hcase] at hz
        simp at hz
        subst hz
        exact docBefore_asymm hyx
      · rw [heq] at hz
        simp at hz
        subst hz
        rw [hys] at h
        exact (List.chain'_cons.mp h).1
    · rw [if_neg hyx]
      exact List.chain'_cons.mpr ⟨hyx, h⟩

theorem sortDocuments_nil : sortDocuments [] = [] := rfl

theorem sortDocuments_cons (x : Document) (xs : List Document) :
    sortDocuments (x :: xs) = orderedInsertDoc x (sortDocuments xs) := rfl

theorem chain'_sortDocuments (l : List Document) :
    List.Chain' (fun a b => ¬ docBefore b a) (sortDocuments l) := by
  induction l with
  | nil => simp [sortDocuments_nil]
  | cons x xs ih =>
    rw [sortDocuments_cons]
    exact chain'_orderedInsertDoc ih

theorem mem_sortDocuments {z : Document} {l : List Document} :
    z ∈ sortDocuments l ↔ z ∈ l := by
  induction l with
  | nil => simp [sortDocuments_nil]
  | cons x xs ih =>
    rw [sortDocuments_cons, mem_orderedInsertDoc]
    simp [ih]

theorem length_sortDocuments (l : List Document) :
    (sortDocuments l).length = l.length := by
  induction l with
  | nil => rfl
  | cons x xs ih =>
    rw [sortDocuments_cons, length_orderedInsertDoc, ih]
    rfl

theorem resultOrdered_of_not_docBefore {a b : Document} (h : ¬ docBefore b a) :
    resultOrdered a b := by
  unfold docBefore at h
  unfold resultOrdered
  by_cases hab : |a.relevance - b.relevance| < DELTA
  · rw [if_pos hab]
    have hba : |b.relevance - a.relevance| < DELTA := by rwa [abs_sub_comm]
    rw [if_pos hba] at h
    omega
  · rw [if_neg hab]
    have hba : ¬ |b.relevance - a.relevance| < DELTA := by rwa [abs_sub_comm]
    rw [if_neg hba] at h
    have hle : b.relevance ≤ a.relevance := not_lt.mp h
    have hne : a.relevance ≠ b.relevance := by
      intro hh
      apply hab
      rw [hh, sub_self, abs_zero]
      unfold DELTA
      norm_num
    exact lt_of_le_of_ne hle (fun hh => hne hh.symm)

/-- C2: every present `find_top_documents` result has at most five items and
consecutive items are in descending relevance order, relevances closer than
1e-6 being tied and ordered by descending rating. -/
theorem find_top_documents_sorted (s : SearchServer) (raw : Word)
    (pred : Int → DocumentStatus → Int → Bool) :
    sortedTruncated (findTopDocuments s raw pred) := by
  cases hq : parseQuery s raw with
  | none =>
    simp only [findTopDocuments, hq]
    exact trivial
  | some q =>
    by_cases hv : isValidWord raw = false
    · simp only [findTopDocuments, hq, if_pos hv]
      exact trivial
    · simp only [findTopDocuments, hq, if_neg hv]
      refine ⟨?_, ?_⟩
      · exact List.length_take_le _ _
      · exact List.Chain'.imp (fun a b h => resultOrdered_of_not_docBefore h)
          ((chain'_sortDocuments _).take _)

/-! ### Minus-word exclusion (C3) -/

theorem findAllDocuments_def (s : SearchServer) (q : Query)
    (pred : Int → DocumentStatus → Int → Bool) :
    findAllDocuments s q pred =
      (q.minus_words.foldl
        (fun r w =>
          match alookup w s.word_to_document_freqs with
          | none => r
          | some ps => ps.foldl (fun r' p => eraseKey p.1 r') r)
        (q.plus_words.foldl (accumulatePlusWord s pred) [])).map
        (fun p =>
          ⟨p.1, p.2, ((alookup p.1 s.documents).getD ⟨0, DocumentStatus.ACTUAL⟩).rating⟩) := rfl

theorem alookup_inner_erase_fold_none {d : Int} :
    ∀ (ps : List (Int × ℚ)) (r : List (Int × ℝ)), alookup d r = none →
      alookup d (ps.foldl (fun r' p => eraseKey p.1 r') r) = none := by
  intro ps
  induction ps with
  | nil =>
    intro r h
    exact h
  | cons p ps ih =>
    intro r h
    rw [List.foldl_cons]
    exact ih _ (alookup_eraseKey_none h)

theorem alookup_inner_erase_fold_of_mem {d : Int} :
    ∀ (ps : List (Int × ℚ)) (r : List (Int × ℝ)), (∃ p ∈ ps, p.1 = d) →
      alookup d (ps.foldl (fun r' p => eraseKey p.1 r') r) = none := by
  intro ps
  induction ps with
  | nil =>
    intro r h
    simp at h
  | cons p ps ih =>
    intro r h
    rw [List.foldl_cons]
    rcases h with ⟨p', hp', hpd⟩
    rcases List.mem_cons.mp hp' with h' | h'
    · subst h'
      apply alookup_inner_erase_fold_none
      rw [hpd]
      exact alookup_eraseKey_self
    · exact ih _ ⟨p', h', hpd⟩

theorem alookup_minus_fold_none {s : SearchServer} {d : Int} :
    ∀ (ms : List Word) (r : List (Int × ℝ)), alookup d r = none →
      alookup d (ms.foldl
        (fun r w =>
          match alookup w s.word_to_document_freqs with
          | none => r
          | some ps => ps.foldl (fun r' p => eraseKey p.1 r') r) r) = none := by
  intro ms
  induction ms with
  | nil =>
    intro r h
    exact h
  | cons w ms ih =>
    intro r h
    rw [List.foldl_cons]
    cases hw : alookup w s.word_to_document_freqs with
    | none =>
      simp only [hw]
      exact ih _ h
    | some ps =>
      simp only [hw]
      exact ih _ (alookup_inner_erase_fold_none ps r h)

theorem alookup_minus_fold_of_mem {s : SearchServer} {d : Int} {w : Word}
    {ps : List (Int × ℚ)}
    (hps : alookup w s.word_to_document_freqs = some ps) (hd : ∃ p ∈ ps, p.1 = d) :
    ∀ (ms : List Word) (r : List (Int × ℝ)), w ∈ ms →
      alookup d (ms.foldl
        (fun r w =>
          match alookup w s.word_to_document_freqs with
          | none => r
          | some ps => ps.foldl (fun r' p => eraseKey p.1 r') r) r) = none := by
  intro ms
  induction ms with
  | nil =>
    intro r hmem
    simp at hmem
  | cons w' ms ih =>
    intro r hmem
    rw [List.foldl_cons]
    rcases List.mem_cons.mp hmem with h' | h'
    · subst h'
      simp only [hps]
      exact alookup_minus_fold_none ms _ (alookup_inner_erase_fold_of_mem ps r hd)
    · exact ih _ h'

/-- C3: a document posting under any excluded term of a parsed query never
appears in the `find_top_documents` result, whatever the predicate, and
`match_document` reports an empty match list (with the stored status) for
it, even when the document also posts under required terms. -/
theorem minus_word_excludes (s : SearchServer) (raw : Word)
    (pred : Int → DocumentStatus → Int → Bool) (q : Query) (w : Word) (d : Int)
    (ps : List (Int × ℚ)) (dd : DocumentData)
    (hq : parseQuery s raw = some q) (hw : w ∈ q.minus_words)
    (hps : alookup w s.word_to_document_freqs = some ps)
    (hd : (alookup d ps).isSome = true)
    (hdd : alookup d s.documents = some dd) :
    d ∉ ((findTopDocuments s raw pred).getD []).map Document.id ∧
    matchDocument s raw d = some ([], dd.status) := by
  have hvalid := isValidWord_of_parse hq
  have hvne : ¬ isValidWord raw = false := by
    rw [hvalid]
    simp
  have hdmem : ∃ p ∈ ps, p.1 = d := alookup_isSome_iff.mp hd
  constructor
  · have heq : findTopDocuments s raw pred
        = some ((sortDocuments (findAllDocuments s q pred)).take
            MAX_RESULT_DOCUMENT_COUNT) := by
      simp only [findTopDocuments, hq, if_neg hvne]
    rw [heq]
    intro hmem
    simp only [Option.getD_some] at hmem
    obtain ⟨doc, hdoc, hdocid⟩ := List.mem_map.mp hmem
    have hdoc3 : doc ∈ findAllDocuments s q pred :=
      mem_sortDocuments.mp (List.mem_of_mem_take hdoc)
    rw [findAllDocuments_def] at hdoc3
    obtain ⟨p, hp, hpdoc⟩ := List.mem_map.mp hdoc3
    have hrel := alookup_minus_fold_of_mem hps hdmem q.minus_words
      (q.plus_words.foldl (accumulatePlusWord s pred) []) hw
    refine (alookup_eq_none_iff.mp hrel) p hp ?_
    rw [show p.1 = doc.id from by rw [← hpdoc]]
    exact hdocid
  · have hmin : (q.minus_words.any (fun w =>
        match alookup w s.word_to_document_freqs with
        | none => false
        | some ps => (alookup d ps).isSome)) = true := by
      rw [List.any_eq_true]
      refine ⟨w, hw, ?_⟩
      simp only [hps]
      exact hd
    simp only [matchDocument, hq, if_neg hvne, hmin, hdd]
    simp

/-- Witness for C3: document 0 of `serverAB` posts under "b"; the query
"a -b" excludes it from results and from the match list. -/
theorem minus_word_excludes_witness :
    parseQuery serverAB ['a', ' ', '-', 'b'] = some ⟨[['a']], [['b']]⟩ ∧
    (['b'] : Word) ∈ (Query.mk [['a']] [['b']]).minus_words ∧
    alookup ['b'] serverAB.word_to_document_freqs = some [(0, 1/2)] ∧
    (alookup (0 : Int) [((0 : Int), (1/2 : ℚ))]).isSome = true ∧
    alookup (0 : Int) serverAB.documents = some ⟨3, DocumentStatus.ACTUAL⟩ ∧
    ((0 : Int) ∉ ((findTopDocuments serverAB ['a', ' ', '-', 'b'] predTrue).getD []).map
        Document.id ∧
     matchDocument serverAB ['a', ' ', '-', 'b'] 0
       = some ([], DocumentStatus.ACTUAL)) := by
  refine ⟨by decide, by decide, rfl, rfl, by decide, ?_⟩
  exact minus_word_excludes serverAB ['a', ' ', '-', 'b'] predTrue
    ⟨[['a']], [['b']]⟩ ['b'] 0 [(0, 1/2)] ⟨3, DocumentStatus.ACTUAL⟩
    (by decide) (by decide) rfl rfl (by decide)

/-! ### Zero inverse document frequency (C10) -/

theorem computeWordIDF_eq_zero_of_cover {s : SearchServer} {w : Word}
    {ps : List (Int × ℚ)}
    (hps : alookup w s.word_to_document_freqs = some ps)
    (hcov : ps.length = s.documents.length) :
    computeWordInverseDocumentFreq s w = 0 := by
  unfold computeWordInverseDocumentFreq
  rw [hps, Option.getD_some, hcov, getDocumentCount]
  push_cast
  by_cases h : (s.documents.length : ℝ) = 0
  · rw [h, div_zero, Real.log_zero]
  · rw [div_self h, Real.log_one]

theorem alookup_bumpAdd_self_mem {β : Type} [Add β] (id : Int) (x : β)
    (l : List (Int × β)) :
    alookup id (bumpAdd id x l) = some x ∨
    ∃ v, alookup id l = some v ∧ alookup id (bumpAdd id x l) = some (v + x) := by
  induction l with
  | nil =>
    left
    rw [bumpAdd_nil, alookup_cons, if_pos rfl]
  | cons hd tl ih =>
    obtain ⟨k, v⟩ := hd
    rcases lt_trichotomy id k with hlt | heq | hgt
    · left
      rw [bumpAdd_cons, if_pos hlt, alookup_cons, if_pos rfl]
    · subst heq
      right
      refine ⟨v, ?_, ?_⟩
      · rw [alookup_cons, if_pos rfl]
      · rw [bumpAdd_cons, if_neg (lt_irrefl id), if_pos rfl, alookup_cons, if_pos rfl]
    · rw [bumpAdd_cons, if_neg (not_lt.mpr hgt.le), if_neg (Ne.symm (ne_of_lt hgt)),
        alookup_cons, if_neg (ne_of_lt hgt)]
      rcases ih with h | ⟨v', hv', hbv'⟩
      · exact Or.inl h
      · refine Or.inr ⟨v', ?_, hbv'⟩
        rw [alookup_cons, if_neg (ne_of_lt hgt)]
        exact hv'

theorem accumulatePlusWord_none {s : SearchServer}
    {pred : Int → DocumentStatus → Int → Bool} {rel : List (Int × ℝ)} {w : Word}
    (h : alookup w s.word_to_document_freqs = none) :
    accumulatePlusWord s pred rel w = rel := by
  unfold accumulatePlusWord
  simp only [h]

theorem accumulatePlusWord_some {s : SearchServer}
    {pred : Int → DocumentStatus → Int → Bool} {rel : List (Int × ℝ)} {w : Word}
    {ps : List (Int × ℚ)} (h : alookup w s.word_to_document_freqs = some ps) :
    accumulatePlusWord s pred rel w =
      ps.foldl (fun r p =>
        match alookup p.1 s.documents with
        | some dd =>
          if pred p.1 dd.status dd.rating then
            bumpAdd p.1 ((p.2 : ℝ) * computeWordInverseDocumentFreq s w) r
          else r
        | none => r) rel := by
  unfold accumulatePlusWord
  simp only [h]

theorem plus_inner_fold_zero (s : SearchServer)
    (pred : Int → DocumentStatus → Int → Bool) (d : Int) (v : ℝ) (hv : v = 0) :
    ∀ (ps : List (Int × ℚ)) (r : List (Int × ℝ)),
      (alookup d r = none ∨ alookup d r = some 0) →
      (alookup d (ps.foldl (fun racc p =>
          match alookup p.1 s.documents with
          | some dd =>
            if pred p.1 dd.status dd.rating then bumpAdd p.1 ((p.2 : ℝ) * v) racc else racc
          | none => racc) r) = none ∨
       alookup d (ps.foldl (fun racc p =>
          match alookup p.1 s.documents with
          | some dd =>
            if pred p.1 dd.status dd.rating then bumpAdd p.1 ((p.2 : ℝ) * v) racc else racc
          | none => racc) r) = some 0) := by
  subst hv
  intro ps
  induction ps with
  | nil =>
    intro r h
    exact h
  | cons p ps ih =>
    intro r h
    rw [List.foldl_cons]
    refine ih _ ?_
    cases hdd : alookup p.1 s.documents with
    | none =>
      simp only [hdd]
      exact h
    | some dd =>
      simp only [hdd]
      by_cases hpred : pred p.1 dd.status dd.rating = true
      · rw [if_pos hpred]
        by_cases hpd : p.1 = d
        · subst hpd
          right
          rcases alookup_bumpAdd_self_mem p.1 ((p.2 : ℝ) * 0) r with h' | ⟨v', hv', hbv'⟩
          · rw [h', mul_zero]
          · rw [hbv', mul_zero, add_zero]
            rcases h with h | h
            · rw [hv'] at h
              exact Option.noConfusion h
            · rw [hv'] at h
              rw [Option.some.injEq] at h
              rw [h]
        · rw [alookup_bumpAdd_ne _ (fun hh => hpd hh.symm)]
          exact h
      · rw [if_neg hpred]
        exact h

theorem plus_inner_fold_keeps_zero (s : SearchServer)
    (pred : Int → DocumentStatus → Int → Bool) (d : Int) (v : ℝ) (hv : v = 0) :
    ∀ (ps : List (Int × ℚ)) (r : List (Int × ℝ)),
      alookup d r = some 0 →
      alookup d (ps.foldl (fun racc p =>
          match alookup p.1 s.documents with
          | some dd =>
            if pred p.1 dd.status dd.rating then bumpAdd p.1 ((p.2 : ℝ) * v) racc else racc
          | none => racc) r) = some 0 := by
  subst hv
  intro ps
  induction ps with
  | nil =>
    intro r h
    exact h
  | cons p ps ih =>
    intro r h
    rw [List.foldl_cons]
    refine ih _ ?_
    cases hdd : alookup p.1 s.documents with
    | none =>
      simp only [hdd]
      exact h
    | some dd =>
      simp only [hdd]
      by_cases hpred : pred p.1 dd.status dd.rating = true
      · rw [if_pos hpred]
        by_cases hpd : p.1 = d
        · subst hpd
          rcases alookup_bumpAdd_self_mem p.1 ((p.2 : ℝ) * 0) r with h' | ⟨v', hv', hbv'⟩
          · rw [h', mul_zero]
          · rw [hbv', mul_zero, add_zero]
            rw [hv', Option.some.injEq] at h
            rw [h]
        · rw [alookup_bumpAdd_ne _ (fun hh => hpd hh.symm)]
          exact h
      · rw [if_neg hpred]
        exact h

theorem plus_inner_fold_creates_zero (s : SearchServer)
    (pred : Int → DocumentStatus → Int → Bool) (d : Int) (v : ℝ) (hv : v = 0)
    (dd : DocumentData) (hdd : alookup d s.documents = some dd)
    (hpredd : pred d dd.status dd.rating = true) :
    ∀ (ps : List (Int × ℚ)) (r : List (Int × ℝ)),
      (∃ p ∈ ps, p.1 = d) →
      (alookup d r = none ∨ alookup d r = some 0) →
      alookup d (ps.foldl (fun racc p =>
          match alookup p.1 s.documents with
          | some dd =>
            if pred p.1 dd.status dd.rating then bumpAdd p.1 ((p.2 : ℝ) * v) racc else racc
          | none => racc) r) = some 0 := by
  intro ps
  induction ps with
  | nil =>
    intro r hmem
    simp at hmem
  | cons p ps ih =>
    intro r hmem h
    rw [List.foldl_cons]
    by_cases hpd : p.1 = d
    · refine plus_inner_fold_keeps_zero s pred d v hv ps _ ?_
      simp only [hpd, hdd]
      rw [if_pos hpredd]
      subst hv
      rcases alookup_bumpAdd_self_mem d ((p.2 : ℝ) * 0) r with h' | ⟨v', hv', hbv'⟩
      · rw [h', mul_zero]
      · rw [hbv', mul_zero, add_zero]
        rcases h with h | h
        · rw [hv'] at h
          exact Option.noConfusion h
        · rw [hv', Option.some.injEq] at h
          rw [h]
    · obtain ⟨p', hp', hp'd⟩ := hmem
      rcases List.mem_cons.mp hp' with h' | h'
      · exact absurd (h' ▸ hp'd) hpd
      · refine ih _ ⟨p', h', hp'd⟩ ?_
        cases hdd2 : alookup p.1 s.documents with
        | none =>
          simp only [hdd2]
          exact h
        | some dd2 =>
          simp only [hdd2]
          by_cases hpred : pred p.1 dd2.status dd2.rating = true
          · rw [if_pos hpred, alookup_bumpAdd_ne _ (fun hh => hpd hh.symm)]
            exact h
          · rw [if_neg hpred]
            exact h

theorem plus_inner_fold_ne (s : SearchServer)
    (pred : Int → DocumentStatus → Int → Bool) (d : Int) (v : ℝ) :
    ∀ (ps : List (Int × ℚ)) (r : List (Int × ℝ)),
      (∀ p ∈ ps, p.1 ≠ d) →
      alookup d (ps.foldl (fun racc p =>
          match alookup p.1 s.documents with
          | some dd =>
            if pred p.1 dd.status dd.rating then bumpAdd p.1 ((p.2 : ℝ) * v) racc else racc
          | none => racc) r) = alookup d r := by
  intro ps
  induction ps with
  | nil =>
    intro r _
    rfl
  | cons p ps ih =>
    intro r hne
    rw [List.foldl_cons]
    have hpd : p.1 ≠ d := hne p (List.mem_cons_self _ _)
    have hrest : ∀ p' ∈ ps, p'.1 ≠ d := fun p' hp' => hne p' (List.mem_cons_of_mem _ hp')
    rw [ih _ hrest]
    cases hdd : alookup p.1 s.documents with
    | none => simp only [hdd]
    | some dd =>
      simp only [hdd]
      by_cases hpred : pred p.1 dd.status dd.rating = true
      · rw [if_pos hpred, alookup_bumpAdd_ne _ (fun hh => hpd hh.symm)]
      · rw [if_neg hpred]

theorem plus_word_step_invariant {s : SearchServer}
    {pred : Int → DocumentStatus → Int → Bool} {d : Int} {w : Word}
    {rel : List (Int × ℝ)}
    (hw : ∀ ps, alookup w s.word_to_document_freqs = some ps →
      (∃ p ∈ ps, p.1 = d) → computeWordInverseDocumentFreq s w = 0)
    (h : alookup d rel = none ∨ alookup d rel = some 0) :
    alookup d (accumulatePlusWord s pred rel w) = none ∨
    alookup d (accumulatePlusWord s pred rel w) = some 0 := by
  cases hlk : alookup w s.word_to_document_freqs with
  | none =>
    rw [accumulatePlusWord_none hlk]
    exact h
  | some ps =>
    rw [accumulatePlusWord_some hlk]
    by_cases hpost : ∃ p ∈ ps, p.1 = d
    · exact plus_inner_fold_zero s pred d _ (hw ps hlk hpost) ps rel h
    · push_neg at hpost
      rw [plus_inner_fold_ne s pred d _ ps rel hpost]
      exact h

theorem plus_word_step_keeps {s : SearchServer}
    {pred : Int → DocumentStatus → Int → Bool} {d : Int} {w : Word}
    {rel : List (Int × ℝ)}
    (hw : ∀ ps, alookup w s.word_to_document_freqs = some ps →
      (∃ p ∈ ps, p.1 = d) → computeWordInverseDocumentFreq s w = 0)
    (h : alookup d rel = some 0) :
    alookup d (accumulatePlusWord s pred rel w) = some 0 := by
  cases hlk : alookup w s.word_to_document_freqs with
  | none =>
    rw [accumulatePlusWord_none hlk]
    exact h
  | some ps =>
    rw [accumulatePlusWord_some hlk]
    by_cases hpost : ∃ p ∈ ps, p.1 = d
    · exact plus_inner_fold_keeps_zero s pred d _ (hw ps hlk hpost) ps rel h
    · push_neg at hpost
      rw [plus_inner_fold_ne s pred d _ ps rel hpost]
      exact h

theorem plus_fold_invariant {s : SearchServer}
    {pred : Int → DocumentStatus → Int → Bool} {d : Int} :
    ∀ (ws : List Word) (r : List (Int × ℝ)),
      (∀ w ∈ ws, ∀ ps, alookup w s.word_to_document_freqs = some ps →
        (∃ p ∈ ps, p.1 = d) → computeWordInverseDocumentFreq s w = 0) →
      (alookup d r = none ∨ alookup d r = some 0) →
      (alookup d (ws.foldl (accumulatePlusWord s pred) r) = none ∨
       alookup d (ws.foldl (accumulatePlusWord s pred) r) = some 0) := by
  intro ws
  induction ws with
  | nil =>
    intro r _ h
    exact h
  | cons w ws ih =>
    intro r hcov h
    rw [List.foldl_cons]
    refine ih _ (fun w' hw' => hcov w' (List.mem_cons_of_mem _ hw')) ?_
    exact plus_word_step_invariant (hcov w (List.mem_cons_self _ _)) h

theorem plus_fold_keeps {s : SearchServer}
    {pred : Int → DocumentStatus → Int → Bool} {d : Int} :
    ∀ (ws : List Word) (r : List (Int × ℝ)),
      (∀ w ∈ ws, ∀ ps, alookup w s.word_to_document_freqs = some ps →
        (∃ p ∈ ps, p.1 = d) → computeWordInverseDocumentFreq s w = 0) →
      alookup d r = some 0 →
      alookup d (ws.foldl (accumulatePlusWord s pred) r) = some 0 := by
  intro ws
  induction ws with
  | nil =>
    intro r _ h
    exact h
  | cons w ws ih =>
    intro r hcov h
    rw [List.foldl_cons]
    refine ih _ (fun w' hw' => hcov w' (List.mem_cons_of_mem _ hw')) ?_
    exact plus_word_step_keeps (hcov w (List.mem_cons_self _ _)) h

theorem plus_fold_creates {s : SearchServer}
    {pred : Int → DocumentStatus → Int → Bool} {d : Int} {w0 : Word}
    {ps0 : List (Int × ℚ)} {dd : DocumentData}
    (hps0 : alookup w0 s.word_to_document_freqs = some ps0)
    (hmem0 : ∃ p ∈ ps0, p.1 = d)
    (hdd : alookup d s.documents = some dd)
    (hpredd : pred d dd.status dd.rating = true) :
    ∀ (ws : List Word) (r : List (Int × ℝ)),
      (∀ w ∈ ws, ∀ ps, alookup w s.word_to_document_freqs = some ps →
        (∃ p ∈ ps, p.1 = d) → computeWordInverseDocumentFreq s w = 0) →
      w0 ∈ ws →
      (alookup d r = none ∨ alookup d r = some 0) →
      alookup d (ws.foldl (accumulatePlusWord s pred) r) = some 0 := by
  intro ws
  induction ws with
  | nil =>
    intro r _ hmem
    simp at hmem
  | cons w ws ih =>
    intro r hcov hmem h
    rw [List.foldl_cons]
    rcases List.mem_cons.mp hmem with hw | hw
    · subst hw
      refine plus_fold_keeps ws _ (fun w' hw' => hcov w' (List.mem_cons_of_mem _ hw')) ?_
      have hidf0 : computeWordInverseDocumentFreq s w0 = 0 :=
        hcov w0 (List.mem_cons_self _ _) ps0 hps0 hmem0
      rw [accumulatePlusWord_some hps0]
      exact plus_inner_fold_creates_zero s pred d _ hidf0 dd hdd hpredd ps0 r hmem0 h
    · refine ih _ (fun w' hw' => hcov w' (List.mem_cons_of_mem _ hw')) hw ?_
      exact plus_word_step_invariant (hcov w (List.mem_cons_self _ _)) h

theorem minus_inner_fold_preserve {d : Int} :
    ∀ (ps : List (Int × ℚ)) (r : List (Int × ℝ)),
      (∀ p ∈ ps, p.1 ≠ d) →
      alookup d (ps.foldl (fun r' p => eraseKey p.1 r') r) = alookup d r := by
  intro ps
  induction ps with
  | nil =>
    intro r _
    rfl
  | cons p ps ih =>
    intro r hne
    rw [List.foldl_cons]
    rw [ih _ (fun p' hp' => hne p' (List.mem_cons_of_mem _ hp'))]
    exact alookup_eraseKey_ne (fun hh => hne p (List.mem_cons_self _ _) hh.symm)

theorem minus_fold_preserve {s : SearchServer} {d : Int} :
    ∀ (ms : List Word) (r : List (Int × ℝ)),
      (∀ w ∈ ms, ∀ ps, alookup w s.word_to_document_freqs = some ps →
        ∀ p ∈ ps, p.1 ≠ d) →
      alookup d (ms.foldl
        (fun r w =>
          match alookup w s.word_to_document_freqs with
          | none => r
          | some ps => ps.foldl (fun r' p => eraseKey p.1 r') r) r) = alookup d r := by
  intro ms
  induction ms with
  | nil =>
    intro r _
    rfl
  | cons w ms ih =>
    intro r hno
    rw [List.foldl_cons]
    rw [ih _ (fun w' hw' => hno w' (List.mem_cons_of_mem _ hw'))]
    cases hw : alookup w s.word_to_document_freqs with
    | none => simp only [hw]
    | some ps =>
      simp only [hw]
      exact minus_inner_fold_preserve ps r (hno w (List.mem_cons_self _ _) ps hw)

/-- C10 amended: a required term posting in every stored document has
inverse document frequency log(1) = 0; a stored document all of whose
required-term postings cover every stored document, with no excluded-term
posting and an accepting predicate, appears in the ranker's candidate list
with relevance exactly 0, and in the `find_top_documents` result whenever at
most five candidates remain (the top-5 truncation may otherwise drop it). -/
theorem idf_zero_inclusion (s : SearchServer) (raw : Word)
    (pred : Int → DocumentStatus → Int → Bool) (q : Query) (w0 : Word)
    (ps0 : List (Int × ℚ)) (d : Int) (dd : DocumentData)
    (hq : parseQuery s raw = some q)
    (hw0 : w0 ∈ q.plus_words)
    (hps0 : alookup w0 s.word_to_document_freqs = some ps0)
    (hd0 : (alookup d ps0).isSome = true)
    (hcov : ∀ w ∈ q.plus_words, ∀ ps, alookup w s.word_to_document_freqs = some ps →
      (∃ p ∈ ps, p.1 = d) → ps.length = s.documents.length)
    (hnominus : ∀ w ∈ q.minus_words, ∀ ps, alookup w s.word_to_document_freqs = some ps →
      ∀ p ∈ ps, p.1 ≠ d)
    (hdd : alookup d s.documents = some dd)
    (hpredd : pred d dd.status dd.rating = true) :
    computeWordInverseDocumentFreq s w0 = 0 ∧
    (⟨d, 0, dd.rating⟩ : Document) ∈ findAllDocuments s q pred ∧
    ((findAllDocuments s q pred).length ≤ MAX_RESULT_DOCUMENT_COUNT →
      ∃ l, findTopDocuments s raw pred = some l ∧
        (⟨d, 0, dd.rating⟩ : Document) ∈ l) := by
  have hidfcov : ∀ w ∈ q.plus_words, ∀ ps,
      alookup w s.word_to_document_freqs = some ps →
      (∃ p ∈ ps, p.1 = d) → computeWordInverseDocumentFreq s w = 0 :=
    fun w hw ps hps hpd => computeWordIDF_eq_zero_of_cover hps (hcov w hw ps hps hpd)
  have hmem0 : ∃ p ∈ ps0, p.1 = d := alookup_isSome_iff.mp hd0
  have hrel0 : alookup d (q.plus_words.foldl (accumulatePlusWord s pred) []) = some 0 :=
    plus_fold_creates hps0 hmem0 hdd hpredd q.plus_words [] hidfcov hw0 (Or.inl rfl)
  have hrel1 : alookup d (q.minus_words.foldl
      (fun r w =>
        match alookup w s.word_to_document_freqs with
        | none => r
        | some ps => ps.foldl (fun r' p => eraseKey p.1 r') r)
      (q.plus_words.foldl (accumulatePlusWord s pred) [])) = some 0 := by
    rw [minus_fold_preserve q.minus_words _ hnominus]
    exact hrel0
  have hmemfind : (⟨d, 0, dd.rating⟩ : Document) ∈ findAllDocuments s q pred := by
    rw [findAllDocuments_def]
    refine List.mem_map.mpr ⟨(d, 0), mem_of_alookup_eq_some hrel1, ?_⟩
    simp [hdd]
  refine ⟨computeWordIDF_eq_zero_of_cover hps0 (hcov w0 hw0 ps0 hps0 hmem0), hmemfind, ?_⟩
  intro hlen
  have hvalid := isValidWord_of_parse hq
  have hvne : ¬ isValidWord raw = false := by
    rw [hvalid]
    simp
  refine ⟨(sortDocuments (findAllDocuments s q pred)).take MAX_RESULT_DOCUMENT_COUNT, ?_, ?_⟩
  · simp only [findTopDocuments, hq, if_neg hvne]
  · have hlen2 : (sortDocuments (findAllDocuments s q pred)).length
        ≤ MAX_RESULT_DOCUMENT_COUNT := by
      rw [length_sortDocuments]
      exact hlen
    rw [List.take_of_length_le hlen2]
    exact mem_sortDocuments.mpr hmemfind

/-- Witness for the amended C10: on `serverT` the term "t" covers the whole
one-document store and document 0 is ranked with relevance exactly 0. -/
theorem idf_zero_inclusion_witness :
    parseQuery serverT ['t'] = some ⟨[['t']], []⟩ ∧
    (['t'] : Word) ∈ (Query.mk [['t']] []).plus_words ∧
    alookup ['t'] serverT.word_to_document_freqs = some [(0, 1)] ∧
    (alookup (0 : Int) [((0 : Int), (1 : ℚ))]).isSome = true ∧
    (computeWordInverseDocumentFreq serverT ['t'] = 0 ∧
     (⟨0, 0, 7⟩ : Document) ∈ findAllDocuments serverT ⟨[['t']], []⟩ predTrue ∧
     ((findAllDocuments serverT ⟨[['t']], []⟩ predTrue).length ≤ MAX_RESULT_DOCUMENT_COUNT →
       ∃ l, findTopDocuments serverT ['t'] predTrue = some l ∧
         (⟨0, 0, 7⟩ : Document) ∈ l)) := by
  have hcov : ∀ w ∈ (Query.mk [['t']] []).plus_words, ∀ ps,
      alookup w serverT.word_to_document_freqs = some ps →
      (∃ p ∈ ps, p.1 = (0 : Int)) → ps.length = serverT.documents.length := by
    intro w hw ps hps _
    have hw' : w = ['t'] := by simpa using hw
    subst hw'
    have : alookup (['t'] : Word) serverT.word_to_document_freqs
        = some [((0 : Int), (1 : ℚ))] := rfl
    rw [this, Option.some.injEq] at hps
    rw [← hps]
    rfl
  have hnominus : ∀ w ∈ (Query.mk [['t']] []).minus_words, ∀ ps,
      alookup w serverT.word_to_document_freqs = some ps →
      ∀ p ∈ ps, p.1 ≠ (0 : Int) := by
    intro w hw
    simp at hw
  refine ⟨by decide, by decide, rfl, rfl, ?_⟩
  exact idf_zero_inclusion serverT ['t'] predTrue ⟨[['t']], []⟩ ['t'] [(0, 1)] 0
    ⟨7, DocumentStatus.ACTUAL⟩ (by decide) (by decide) rfl rfl hcov hnominus rfl rfl

theorem docBefore_same_rel {a b : Document} (h : a.relevance = b.relevance) :
    docBefore a b ↔ a.rating > b.rating := by
  unfold docBefore
  rw [h, sub_self, abs_zero, if_pos (show (0 : ℝ) < DELTA by norm_num [DELTA])]

theorem findAll_serverSix :
    findAllDocuments serverSix ⟨[['t']], []⟩ predTrue =
      [⟨0, 0, 0⟩, ⟨1, 0, 1⟩, ⟨2, 0, 2⟩, ⟨3, 0, 3⟩, ⟨4, 0, 4⟩, ⟨5, 0, 5⟩] := by
  have hidf : computeWordInverseDocumentFreq serverSix ['t'] = 0 :=
    computeWordIDF_eq_zero_of_cover
      (show alookup (['t'] : Word) serverSix.word_to_document_freqs
        = some [((0 : Int), (1 : ℚ)), (1, 1), (2, 1), (3, 1), (4, 1), (5, 1)] from rfl)
      rfl
  rw [findAllDocuments_def]
  simp only [List.foldl_nil, List.foldl_cons]
  rw [accumulatePlusWord_some
    (show alookup (['t'] : Word) serverSix.word_to_document_freqs
      = some [((0 : Int), (1 : ℚ)), (1, 1), (2, 1), (3, 1), (4, 1), (5, 1)] from rfl)]
  simp only [hidf, mul_zero]
  simp [serverSix, alookup, bumpAdd, predTrue]

theorem sort_serverSix :
    sortDocuments
      [⟨0, 0, 0⟩, ⟨1, 0, 1⟩, ⟨2, 0, 2⟩, ⟨3, 0, 3⟩, ⟨4, 0, 4⟩, ⟨5, 0, 5⟩] =
      [⟨5, 0, 5⟩, ⟨4, 0, 4⟩, ⟨3, 0, 3⟩, ⟨2, 0, 2⟩, ⟨1, 0, 1⟩, ⟨0, 0, 0⟩] := by
  norm_num [sortDocuments_cons, sortDocuments_nil, orderedInsertDoc_nil,
    orderedInsertDoc_cons, docBefore_same_rel]

/-- C10 counterexample: on a six-document state where the term "t" posts in
every stored document (so its IDF is log 1 = 0), document 0 satisfies all
of the claim's conditions (only all-covering required terms, no excluded
posting, accepting predicate), yet it is absent from the
`find_top_documents` result: all six candidates tie at relevance 0 and the
top-5 truncation drops the lowest-rated one. -/
theorem find_top_truncation_counterexample :
    ((alookup ['t'] serverSix.word_to_document_freqs).getD []).length
      = serverSix.documents.length ∧
    (alookup (0 : Int) ((alookup ['t'] serverSix.word_to_document_freqs).getD [])).isSome
      = true ∧
    predTrue 0 DocumentStatus.ACTUAL 0 = true ∧
    findTopDocuments serverSix ['t'] predTrue =
      some [⟨5, 0, 5⟩, ⟨4, 0, 4⟩, ⟨3, 0, 3⟩, ⟨2, 0, 2⟩, ⟨1, 0, 1⟩] ∧
    (0 : Int) ∉ ([⟨5, 0, 5⟩, ⟨4, 0, 4⟩, ⟨3, 0, 3⟩, ⟨2, 0, 2⟩,
      ⟨1, 0, 1⟩] : List Document).map Document.id := by
  refine ⟨rfl, rfl, rfl, ?_, ?_⟩
  · have hq : parseQuery serverSix ['t'] = some ⟨[['t']], []⟩ := by decide
    simp only [findTopDocuments, hq]
    rw [if_neg (show ¬ isValidWord ['t'] = false by decide)]
    rw [findAll_serverSix, sort_serverSix]
    rfl
  · rw [show ([⟨5, 0, 5⟩, ⟨4, 0, 4⟩, ⟨3, 0, 3⟩, ⟨2, 0, 2⟩,
      ⟨1, 0, 1⟩] : List Document).map Document.id = [5, 4, 3, 2, 1] from rfl]
    decide
